import Mathlib

/-!
Shallow embedding of the version-grouping and version-comparison engine of the
repository (src/src/version_analyzer.py, src/src/ai_base.py, src/src/ai_analyzer.py,
src/main.py), together with proofs settling the frozen claims.

Strings are modelled as their lists of characters (`String.data`); Python string
operations (`os.path.splitext`, `str.strip`, `str.lower`, slicing) are embedded at
the ASCII level, which is exact for every input used in the theorems below.
Python floats do not occur in any claim; the JSON model therefore carries integers
only, which is exact for every response used below.
-/

namespace GitRescue

set_option maxRecDepth 16000

/-- ASCII decimal digit test (`\d` of Python `re` restricted to ASCII, which is
what every input below uses). -/
def isDigitC (c : Char) : Bool :=
  '0' ≤ c && c ≤ '9'

/-- Word character test for `\w` (ASCII letters, digits and underscore). -/
def isWordC (c : Char) : Bool :=
  ('a' ≤ c && c ≤ 'z') || ('A' ≤ c && c ≤ 'Z') || isDigitC c || c = '_'

/-- Whitespace stripped by Python `str.strip()` (ASCII part). -/
def isWsC (c : Char) : Bool :=
  c = ' ' || c = '\t' || c = '\n' || c = '\r' || c = '\x0b' || c = '\x0c'

/-- ASCII lower-casing of one character, as `str.lower()` acts on ASCII. -/
def lowerChar : Char → Char
  | 'A' => 'a' | 'B' => 'b' | 'C' => 'c' | 'D' => 'd' | 'E' => 'e' | 'F' => 'f'
  | 'G' => 'g' | 'H' => 'h' | 'I' => 'i' | 'J' => 'j' | 'K' => 'k' | 'L' => 'l'
  | 'M' => 'm' | 'N' => 'n' | 'O' => 'o' | 'P' => 'p' | 'Q' => 'q' | 'R' => 'r'
  | 'S' => 's' | 'T' => 't' | 'U' => 'u' | 'V' => 'v' | 'W' => 'w' | 'X' => 'x'
  | 'Y' => 'y' | 'Z' => 'z'
  | c => c

/-- Python `str.lower()` on the character list. -/
def lowerL (l : List Char) : List Char :=
  l.map lowerChar

/-- Left strip: drop leading whitespace. -/
def stripLeft (l : List Char) : List Char :=
  l.dropWhile isWsC

/-- Right strip: drop trailing whitespace. -/
def stripRight (l : List Char) : List Char :=
  (l.reverse.dropWhile isWsC).reverse

/-- Python `str.strip()` on the character list. -/
def stripL (l : List Char) : List Char :=
  stripRight (stripLeft l)

/-- Root part of `os.path.splitext(p)` for a path without directory separators:
the extension starts at the last dot, unless every character of the name before
that dot is itself a dot (so `".bashrc"` and `"..."` keep their dots). -/
def splitextRoot (l : List Char) : List Char :=
  match l.reverse.dropWhile (· ≠ '.') with
  | [] => l
  | _ :: front => if front.all (· = '.') then l else front.reverse

/-- Removal of the suffix pattern `[-_]\d+$` by `re.sub` (the pattern can match
at most once: the match is the maximal digit suffix preceded by `-` or `_`). -/
def sub1 (l : List Char) : List Char :=
  let r := l.reverse
  let d := r.takeWhile isDigitC
  if d.isEmpty then l
  else
    match r.drop d.length with
    | c :: rest => if c = '-' || c = '_' then rest.reverse else l
    | [] => l

/-- Matcher for `\d+\.\d+` at the head of the list: on success returns the
remainder after the (greedy) match. -/
def p2Core (l1 : List Char) : Option (List Char) :=
  if (l1.takeWhile isDigitC).isEmpty then none
  else
    match l1.dropWhile isDigitC with
    | '.' :: l2 =>
        if (l2.takeWhile isDigitC).isEmpty then none
        else some (l2.dropWhile isDigitC)
    | _ => none

/-- Matcher for the tail `v?\d+\.\d+` of the pattern `[-_]v?\d+\.\d+` (the
`[-_]` already consumed).  When a `v`/`V` is present the optional group is
committed: the backtracked alternative would need a digit where the `v` stands. -/
def p2Tail (l : List Char) : Option (List Char) :=
  match l with
  | [] => none
  | c :: rest => if c = 'v' || c = 'V' then p2Core rest else p2Core (c :: rest)

/-- Scan for the global removal of `[-_]v?\d+\.\d+`.  The fuel only bounds the
recursion: every step consumes at least one input character (a match removes
the `[-_]` plus a remainder no longer than the rest), so fuel equal to the
input length is never exhausted. -/
def sub2Go : Nat → List Char → List Char
  | 0, l => l
  | _ + 1, [] => []
  | fuel + 1, c :: rest =>
      if c = '-' || c = '_' then
        match p2Tail rest with
        | some rem => sub2Go fuel rem
        | none => c :: sub2Go fuel rest
      else c :: sub2Go fuel rest

/-- Global removal of pattern `[-_]v?\d+\.\d+` by `re.sub` (not anchored):
scan left to right, delete every non-overlapping leftmost match. -/
def sub2 (l : List Char) : List Char :=
  sub2Go l.length l

/-- Removal of the suffix pattern `[-_]copy$` (case-insensitive). -/
def sub3 (l : List Char) : List Char :=
  let r := l.reverse
  if (r.take 4).map lowerChar = ['y', 'p', 'o', 'c'] then
    match r.drop 4 with
    | c :: rest => if c = '-' || c = '_' then rest.reverse else l
    | [] => l
  else l

/-- Removal of the suffix pattern `[-_]backup$` (case-insensitive). -/
def sub4 (l : List Char) : List Char :=
  let r := l.reverse
  if (r.take 6).map lowerChar = ['p', 'u', 'k', 'c', 'a', 'b'] then
    match r.drop 6 with
    | c :: rest => if c = '-' || c = '_' then rest.reverse else l
    | [] => l
  else l

/-- Removal of the suffix pattern `[-_]\w{8}$` (the 8-character hash suffix). -/
def sub5 (l : List Char) : List Char :=
  let r := l.reverse
  if (r.take 8).length = 8 && (r.take 8).all isWordC then
    match r.drop 8 with
    | c :: rest => if c = '-' || c = '_' then rest.reverse else l
    | [] => l
  else l

/-- The normalizer pipeline on the character list: strip the extension, remove
the five suffix patterns in order, then `strip().lower()`. -/
def normalizeL (l : List Char) : List Char :=
  lowerL (stripL (sub5 (sub4 (sub3 (sub2 (sub1 (splitextRoot l)))))))

/-- `BatchGroupingAnalyzer._normalize_filename` / `GitRescuerWorkflow._normalize_filename`. -/
def normalize_filename (s : String) : String :=
  String.mk (normalizeL s.data)

/-- JSON values as produced by `json.loads`, restricted to the float-free
fragment: every number in the responses of the claims is an integer. -/
inductive JVal : Type where
  | jnull : JVal
  | jbool : Bool → JVal
  | jint : Int → JVal
  | jstr : String → JVal
  | jarr : List JVal → JVal
  | jobj : List (String × JVal) → JVal

mutual

/-- Boolean structural equality of JSON values. -/
def JVal.beq : JVal → JVal → Bool
  | .jnull, .jnull => true
  | .jbool a, .jbool b => a == b
  | .jint a, .jint b => a == b
  | .jstr a, .jstr b => a == b
  | .jarr xs, .jarr ys => JVal.beqL xs ys
  | .jobj xs, .jobj ys => JVal.beqO xs ys
  | _, _ => false

/-- Boolean equality of JSON value lists. -/
def JVal.beqL : List JVal → List JVal → Bool
  | [], [] => true
  | x :: xs, y :: ys => JVal.beq x y && JVal.beqL xs ys
  | _, _ => false

/-- Boolean equality of JSON field lists. -/
def JVal.beqO : List (String × JVal) → List (String × JVal) → Bool
  | [], [] => true
  | (k, v) :: xs, (l, w) :: ys => k == l && JVal.beq v w && JVal.beqO xs ys
  | _, _ => false

end

mutual

theorem JVal.eq_of_beq : ∀ {a b : JVal}, JVal.beq a b = true → a = b
  | .jnull, .jnull, _ => rfl
  | .jbool a, .jbool b, h => by
      have : a = b := by simpa [JVal.beq] using h
      rw [this]
  | .jint a, .jint b, h => by
      have : a = b := by simpa [JVal.beq] using h
      rw [this]
  | .jstr a, .jstr b, h => by
      have : a = b := by simpa [JVal.beq] using h
      rw [this]
  | .jarr xs, .jarr ys, h => by
      have : xs = ys := JVal.eqL_of_beqL (by simpa [JVal.beq] using h)
      rw [this]
  | .jobj xs, .jobj ys, h => by
      have : xs = ys := JVal.eqO_of_beqO (by simpa [JVal.beq] using h)
      rw [this]
  | .jnull, .jbool _, h => by simp [JVal.beq] at h
  | .jnull, .jint _, h => by simp [JVal.beq] at h
  | .jnull, .jstr _, h => by simp [JVal.beq] at h
  | .jnull, .jarr _, h => by simp [JVal.beq] at h
  | .jnull, .jobj _, h => by simp [JVal.beq] at h
  | .jbool _, .jnull, h => by simp [JVal.beq] at h
  | .jbool _, .jint _, h => by simp [JVal.beq] at h
  | .jbool _, .jstr _, h => by simp [JVal.beq] at h
  | .jbool _, .jarr _, h => by simp [JVal.beq] at h
  | .jbool _, .jobj _, h => by simp [JVal.beq] at h
  | .jint _, .jnull, h => by simp [JVal.beq] at h
  | .jint _, .jbool _, h => by simp [JVal.beq] at h
  | .jint _, .jstr _, h => by simp [JVal.beq] at h
  | .jint _, .jarr _, h => by simp [JVal.beq] at h
  | .jint _, .jobj _, h => by simp [JVal.beq] at h
  | .jstr _, .jnull, h => by simp [JVal.beq] at h
  | .jstr _, .jbool _, h => by simp [JVal.beq] at h
  | .jstr _, .jint _, h => by simp [JVal.beq] at h
  | .jstr _, .jarr _, h => by simp [JVal.beq] at h
  | .jstr _, .jobj _, h => by simp [JVal.beq] at h
  | .jarr _, .jnull, h => by simp [JVal.beq] at h
  | .jarr _, .jbool _, h => by simp [JVal.beq] at h
  | .jarr _, .jint _, h => by simp [JVal.beq] at h
  | .jarr _, .jstr _, h => by simp [JVal.beq] at h
  | .jarr _, .jobj _, h => by simp [JVal.beq] at h
  | .jobj _, .jnull, h => by simp [JVal.beq] at h
  | .jobj _, .jbool _, h => by simp [JVal.beq] at h
  | .jobj _, .jint _, h => by simp [JVal.beq] at h
  | .jobj _, .jstr _, h => by simp [JVal.beq] at h
  | .jobj _, .jarr _, h => by simp [JVal.beq] at h

theorem JVal.eqL_of_beqL : ∀ {xs ys : List JVal}, JVal.beqL xs ys = true → xs = ys
  | [], [], _ => rfl
  | x :: xs, y :: ys, h => by
      have h1 : JVal.beq x y = true ∧ JVal.beqL xs ys = true := by
        simpa [JVal.beqL] using h
      rw [JVal.eq_of_beq h1.1, JVal.eqL_of_beqL h1.2]
  | [], _ :: _, h => by simp [JVal.beqL] at h
  | _ :: _, [], h => by simp [JVal.beqL] at h

theorem JVal.eqO_of_beqO : ∀ {xs ys : List (String × JVal)}, JVal.beqO xs ys = true → xs = ys
  | [], [], _ => rfl
  | (k, v) :: xs, (l, w) :: ys, h => by
      have h1 : k = l ∧ JVal.beq v w = true ∧ JVal.beqO xs ys = true := by
        simpa [JVal.beqO, Bool.and_assoc] using h
      rw [h1.1, JVal.eq_of_beq h1.2.1, JVal.eqO_of_beqO h1.2.2]
  | [], _ :: _, h => by simp [JVal.beqO] at h
  | _ :: _, [], h => by simp [JVal.beqO] at h

end

mutual

theorem JVal.beq_refl : ∀ a : JVal, JVal.beq a a = true
  | .jnull => rfl
  | .jbool a => by simp [JVal.beq]
  | .jint a => by simp [JVal.beq]
  | .jstr a => by simp [JVal.beq]
  | .jarr xs => by simpa [JVal.beq] using JVal.beqL_refl xs
  | .jobj xs => by simpa [JVal.beq] using JVal.beqO_refl xs

theorem JVal.beqL_refl : ∀ xs : List JVal, JVal.beqL xs xs = true
  | [] => rfl
  | x :: xs => by simp [JVal.beqL, JVal.beq_refl x, JVal.beqL_refl xs]

theorem JVal.beqO_refl : ∀ xs : List (String × JVal), JVal.beqO xs xs = true
  | [] => rfl
  | (k, v) :: xs => by simp [JVal.beqO, JVal.beq_refl v, JVal.beqO_refl xs]

end

instance : DecidableEq JVal := fun a b =>
  decidable_of_iff (JVal.beq a b = true) ⟨JVal.eq_of_beq, fun h => h ▸ JVal.beq_refl a⟩

/-- JSON whitespace (the only four characters `json.loads` skips). -/
def isJWs (c : Char) : Bool :=
  c = ' ' || c = '\t' || c = '\n' || c = '\r'

/-- Skip JSON whitespace. -/
def skipJWs (l : List Char) : List Char :=
  l.dropWhile isJWs

/-- Body of a JSON string after the opening quote.  Escapes and raw control
characters are rejected (a restriction of the model; no input below uses them). -/
def parseStringBody : List Char → Option (String × List Char)
  | [] => none
  | c :: rest =>
      if c = '"' then some ("", rest)
      else if c = '\\' || c.toNat < 32 then none
      else do
        let (s, r) ← parseStringBody rest
        some (String.mk (c :: s.data), r)

/-- Digits to the natural number they denote. -/
def digitsToNat (l : List Char) : Nat :=
  l.foldl (fun a c => a * 10 + (c.toNat - 48)) 0

/-- JSON integer token at the head of the list (strict: no leading zeros, and a
following `.`/`e`/`E` - a float - is rejected by the model). -/
def parseIntTok (l : List Char) : Option (JVal × List Char) :=
  let
    core := fun (m : List Char) (neg : Bool) =>
      let d := m.takeWhile isDigitC
      let rest := m.dropWhile isDigitC
      if d.isEmpty then none
      else if d.length > 1 && d.headD '0' = '0' then none
      else
        match rest with
        | '.' :: _ => none
        | 'e' :: _ => none
        | 'E' :: _ => none
        | _ =>
            let n : Int := Int.ofNat (digitsToNat d)
            some (JVal.jint (if neg then -n else n), rest)
  match l with
  | '-' :: m => core m true
  | _ => core l false

mutual

/-- One JSON value at the head of the list (leading whitespace allowed); returns
the remainder.  `fuel` bounds the recursion depth. -/
def parseVal : Nat → List Char → Option (JVal × List Char)
  | 0, _ => none
  | fuel + 1, l =>
      let w := skipJWs l
      if w.take 4 = "null".data then some (JVal.jnull, w.drop 4)
      else if w.take 4 = "true".data then some (JVal.jbool true, w.drop 4)
      else if w.take 5 = "false".data then some (JVal.jbool false, w.drop 5)
      else
        match w with
        | '"' :: r => do
            let (s, rem) ← parseStringBody r
            some (JVal.jstr s, rem)
        | '[' :: r =>
            (match skipJWs r with
              | ']' :: rem => some (JVal.jarr [], rem)
              | _ => do
                  let (xs, rem) ← parseElems fuel r
                  some (JVal.jarr xs, rem))
        | '\x7b' :: r =>
            (match skipJWs r with
              | '\x7d' :: rem => some (JVal.jobj [], rem)
              | _ => do
                  let (fs, rem) ← parseFields fuel r
                  some (JVal.jobj fs, rem))
        | _ => parseIntTok w

/-- Comma-separated list of values up to the closing `]`. -/
def parseElems : Nat → List Char → Option (List JVal × List Char)
  | 0, _ => none
  | fuel + 1, l => do
      let (v, r) ← parseVal fuel l
      match skipJWs r with
      | ',' :: r2 => do
          let (vs, rem) ← parseElems fuel r2
          some (v :: vs, rem)
      | ']' :: rem => some ([v], rem)
      | _ => none

/-- Comma-separated list of `"key": value` pairs up to the closing brace. -/
def parseFields : Nat → List Char → Option (List (String × JVal) × List Char)
  | 0, _ => none
  | fuel + 1, l =>
      match skipJWs l with
      | '"' :: r => do
          let (k, r2) ← parseStringBody r
          match skipJWs r2 with
          | ':' :: r3 => do
              let (v, r4) ← parseVal fuel r3
              match skipJWs r4 with
              | ',' :: r5 => do
                  let (fs, rem) ← parseFields fuel r5
                  some ((k, v) :: fs, rem)
              | '\x7d' :: rem => some ([(k, v)], rem)
              | _ => none
          | _ => none
      | _ => none

end

/-- `json.loads` on the modelled fragment: one value plus trailing whitespace. -/
def jsonLoads (s : String) : Option JVal := do
  let (v, rem) ← parseVal (2 * s.data.length + 4) s.data
  if skipJWs rem = [] then some v else none

/-- The greedy dot-matches-newline search `re.search(r"\x7b.*\x7d", response, re.DOTALL)`:
the span from the first opening brace to the last closing brace, when the
latter comes after the former. -/
def extractBraceSpan (s : String) : Option String :=
  let l := s.data
  match l.findIdx? (· = '\x7b'), l.reverse.findIdx? (· = '\x7d') with
  | some i, some jr =>
      let j := l.length - 1 - jr
      if i < j then some (String.mk ((l.drop i).take (j - i + 1))) else none
  | _, _ => none

/-- `AIAnalysisBase.parse_json_response`: search for a brace span FIRST and, if
one exists, parse it (a failure of that parse propagates); only when no brace
span exists is the whole text parsed directly.  On failure the original
exception is re-raised (the raw text is printed, not attached). -/
def parse_json_response (response : String) : Except Unit JVal :=
  match extractBraceSpan response with
  | some span =>
      match jsonLoads span with
      | some v => Except.ok v
      | none => Except.error ()
  | none =>
      match jsonLoads response with
      | some v => Except.ok v
      | none => Except.error ()

/-- Modelled from the spec (§4.2, claim C3 wording): attempt a DIRECT JSON parse
of the whole text first; only on failure of that extract the first brace span
and parse it; if both fail, fail.  This is the order the spec asserts; the code
embeds the reverse order (`parse_json_response` above). -/
def parseJsonSpecOrder (response : String) : Except Unit JVal :=
  match jsonLoads response with
  | some v => Except.ok v
  | none =>
      match extractBraceSpan response with
      | some span =>
          match jsonLoads span with
          | some v => Except.ok v
          | none => Except.error ()
      | none => Except.error ()

/-- `FileVersion` (src/src/version_analyzer.py).  `confidence` is an upstream
score, never read by the engine; it is carried as a rational. -/
structure FileVersion where
  original_filename : String
  original_hash : String
  ai_name : String
  ai_analysis : String
  file_type : String
  confidence : Rat
  suggested_filename : String
  saved_path : Option String := none
  content : String := ""
  misjudged : Bool := false
deriving DecidableEq, Repr

instance : Inhabited FileVersion :=
  ⟨{ original_filename := "", original_hash := "", ai_name := "", ai_analysis := "",
     file_type := "", confidence := 0, suggested_filename := "" }⟩

/-- `VersionGroup` (src/src/version_analyzer.py).  `base_name` and `reasoning`
are whatever JSON values the oracle supplied (Python does not coerce them).
`analysis_result` (the comparison dict) is embedded separately as `CompResult`;
it orders members but never changes membership. -/
structure VersionGroup where
  base_name : JVal
  versions : List FileVersion
  sorted_versions : Option (List FileVersion) := none
  reasoning : JVal := JVal.jstr ""
deriving DecidableEq

instance : Inhabited VersionGroup :=
  ⟨{ base_name := JVal.jnull, versions := [] }⟩

/-- Last binding of a key in a parsed object (`json.loads` keeps the last
duplicate of a key, and our field list keeps all pairs in order). -/
def jLookupLast (fields : List (String × JVal)) (key : String) : Option JVal :=
  (fields.reverse.find? (fun f => f.1 = key)).map (·.2)

/-- Python `dict.get(key, default)`; raises `AttributeError` when the receiver
is not a dict. -/
def pyGetE (j : JVal) (key : String) (dflt : JVal) : Except Unit JVal :=
  match j with
  | JVal.jobj fs => Except.ok ((jLookupLast fs key).getD dflt)
  | _ => Except.error ()

/-- Python `for` over a JSON value: lists iterate elements, strings iterate
their characters, dicts iterate their keys; every other value raises. -/
def pyIterE : JVal → Except Unit (List JVal)
  | JVal.jarr xs => Except.ok xs
  | JVal.jstr s => Except.ok (s.data.map (fun c => JVal.jstr (String.mk [c])))
  | JVal.jobj fs => Except.ok (fs.map (fun f => JVal.jstr f.1))
  | _ => Except.error ()

/-- Numeric coercion used by Python comparisons and list indexing: `int` and
`bool` (`True == 1`) succeed, anything else raises `TypeError`. -/
def pyIntE : JVal → Except Unit Int
  | JVal.jint n => Except.ok n
  | JVal.jbool b => Except.ok (if b then 1 else 0)
  | _ => Except.error ()

/-- Python truthiness of a JSON value. -/
def pyTruthy : JVal → Bool
  | JVal.jnull => false
  | JVal.jbool b => b
  | JVal.jint n => n ≠ 0
  | JVal.jstr s => s ≠ ""
  | JVal.jarr xs => ¬xs.isEmpty
  | JVal.jobj fs => ¬fs.isEmpty

/-- Does this JSON value equal (with Python `==`) the given Python string? -/
def jvalIsStr (j : JVal) (s : String) : Bool :=
  match j with
  | JVal.jstr t => t = s
  | _ => false

/-- Python slice `content[:k]` for an `int` bound `k` (negative bounds count
from the end, clamped at zero). -/
def pySliceTo (content : List Char) (k : Int) : List Char :=
  if 0 ≤ k then content.take k.toNat
  else content.take (content.length - (-k).toNat)

/-- `AIAnalysisBase.get_content_preview`: `-1` returns the whole content
verbatim (no guard at this layer), `0` returns the empty string, any other
length truncates to that many characters and appends `"..."` when the content
is longer. -/
def get_content_preview (content : String) (preview_length : Int) : String :=
  if preview_length = -1 then content
  else if preview_length = 0 then ""
  else if (content.data.length : Int) > preview_length then
    String.mk (pySliceTo content.data preview_length) ++ "..."
  else content

/-- Insert a version under its normalized name, preserving dict insertion
order (`name_groups` in `_fallback_grouping`). -/
def addNamed (m : List (String × List FileVersion)) (k : String) (v : FileVersion) :
    List (String × List FileVersion) :=
  if m.any (fun e => e.1 = k) then
    m.map (fun e => if e.1 = k then (e.1, e.2 ++ [v]) else e)
  else m ++ [(k, [v])]

/-- `BatchGroupingAnalyzer._fallback_grouping`: group by equality of the
normalized `ai_name` and keep only groups with more than one member. -/
def fallback_grouping (versions : List FileVersion) : List VersionGroup :=
  let name_groups := versions.foldl (fun m v => addNamed m (normalize_filename v.ai_name) v) []
  name_groups.filterMap (fun e =>
    if 1 < e.2.length then some { base_name := JVal.jstr e.1, versions := e.2 } else none)

/-- `versions[idx - 1]` for a 1-based in-range index (callers guard
`1 <= idx <= len(versions)` first). -/
def resolveIdx (versions : List FileVersion) (k : Int) : FileVersion :=
  (versions.get? (k - 1).toNat).getD default

/-- The completeness singleton built for an index the oracle never used
(reasoning string as in the source). -/
def mkSingleGroup (v : FileVersion) : VersionGroup :=
  { base_name := JVal.jstr (normalize_filename v.ai_name), versions := [v],
    reasoning := JVal.jstr "无法与其他文件匹配，单独成组" }

/-- Body of the inner `for idx in file_indices` loop of
`BatchGroupingAnalyzer.parse_response`: accept an in-range 1-based integer
index, resolve it and record it, skip an out-of-range one, raise on a
non-integer. -/
def batchIdxFold (versions : List FileVersion) (acc : List FileVersion × List Int)
    (ix : JVal) : Except Unit (List FileVersion × List Int) := do
  let k ← pyIntE ix
  if 1 ≤ k ∧ k ≤ (versions.length : Int) then
    pure (acc.1 ++ [resolveIdx versions k], acc.2 ++ [k])
  else pure acc

/-- The loop of `BatchGroupingAnalyzer.parse_response` over the `groups` array:
resolve in-range 1-based indices, record used indices, keep non-empty groups. -/
def batchGroupLoop (versions : List FileVersion) :
    List JVal → List VersionGroup → List Int → Except Unit (List VersionGroup × List Int)
  | [], gs, used => Except.ok (gs, used)
  | gd :: rest, gs, used => do
      let nameJ ← pyGetE gd "group_name" (JVal.jstr "unknown")
      let idxJ ← pyGetE gd "file_indices" (JVal.jarr [])
      let reasonJ ← pyGetE gd "reasoning" (JVal.jstr "")
      let idxVals ← pyIterE idxJ
      let ru ← idxVals.foldlM (batchIdxFold versions) ([], [])
      if ru.1 = [] then batchGroupLoop versions rest gs (used ++ ru.2)
      else
        batchGroupLoop versions rest
          (gs ++ [{ base_name := nameJ, versions := ru.1, reasoning := reasonJ }]) (used ++ ru.2)

/-- Body of `BatchGroupingAnalyzer.parse_response` after the JSON was parsed:
the oracle groups, then one completeness singleton per index never used. -/
def batchParse (j : JVal) (versions : List FileVersion) : Except Unit (List VersionGroup) := do
  let groupsJ ← pyGetE j "groups" (JVal.jarr [])
  let gl ← pyIterE groupsJ
  let gu ← batchGroupLoop versions gl [] []
  let singles := (List.range versions.length).filterMap (fun i : Nat =>
      if ((i : Int) + 1) ∈ gu.2 then none
      else some (mkSingleGroup (resolveIdx versions ((i : Int) + 1))))
  pure (gu.1 ++ singles)

/-- `BatchGroupingAnalyzer.parse_response`: on any exception (JSON parse or
shape error) fall back to name-based grouping. -/
def parse_response_batch (response : String) (versions : List FileVersion) :
    List VersionGroup :=
  match parse_json_response response >>= (batchParse · versions) with
  | Except.ok gs => gs
  | Except.error _ => fallback_grouping versions

/-- Body of the `for idx in similar_files` loop of
`IterativeGroupingAnalyzer.parse_response`: resolve an in-range 1-based integer
index, skip an out-of-range one, raise on a non-integer. -/
def iterIdxFold (candidate_versions : List FileVersion) (acc : List FileVersion)
    (ix : JVal) : Except Unit (List FileVersion) := do
  let k ← pyIntE ix
  if 1 ≤ k ∧ k ≤ (candidate_versions.length : Int) then
    pure (acc ++ [resolveIdx candidate_versions k])
  else pure acc

/-- `IterativeGroupingAnalyzer.parse_response`: resolve the in-range 1-based
`similar_files` indices against the candidate pool; ANY exception yields the
empty list (the partial list built before the exception is discarded). -/
def parse_response_iterative (response : String) (candidate_versions : List FileVersion) :
    List FileVersion :=
  match (do
      let j ← parse_json_response response
      let simJ ← pyGetE j "similar_files" (JVal.jarr [])
      let idxVals ← pyIterE simJ
      idxVals.foldlM (iterIdxFold candidate_versions) ([] : List FileVersion)) with
  | Except.ok l => l
  | Except.error _ => []

/-- Index of the first version whose `suggested_filename` equals (with Python
`==`) the entry's `filename` value — the `for v in versions: ... break` lookup. -/
def findVersionIdx (fn : JVal) : List FileVersion → Option Nat
  | [] => none
  | v :: vs =>
      if jvalIsStr fn v.suggested_filename then some 0
      else (findVersionIdx fn vs).map (· + 1)

/-- One entry of `file_analysis_list`.  Python stores the `FileVersion` object
itself; the model stores its index into the group list (`fileIdx`), since the
object is mutable shared state.  `misjudged` is the value recorded at entry
processing time. -/
structure FileAnalysisEntry where
  fileIdx : Nat
  analysis : JVal
  sort_index : JVal
  misjudged : Bool
deriving DecidableEq

/-- The dict returned by `VersionComparisonAnalyzer.parse_response`.  The
free-text `analysis`/`notes` and the float `confidence` are not read by any
claim and are omitted from the embedding. -/
structure CompResult where
  success : Bool
  sorted_versions : List FileVersion
  file_analysis_list : List FileAnalysisEntry
  group_misjudged : Bool
  raw_response : String
deriving DecidableEq

/-- The entry loop of `VersionComparisonAnalyzer.parse_response`.  State:
current versions (`misjudged` is mutated in place), the sparse slot array, and
the analysis list.  An exception aborts with the versions as mutated so far. -/
def compEntryLoop (gm : Bool) :
    List JVal → List FileVersion → List (Option Nat) → List FileAnalysisEntry →
    Except (List FileVersion) (List FileVersion × List (Option Nat) × List FileAnalysisEntry)
  | [], vs, slots, fal => Except.ok (vs, slots, fal)
  | fd :: rest, vs, slots, fal =>
      match fd with
      | JVal.jobj fs =>
          let fn := (jLookupLast fs "filename").getD (JVal.jstr "")
          match findVersionIdx fn vs with
          | none => compEntryLoop gm rest vs slots fal
          | some i =>
              let mis := pyTruthy ((jLookupLast fs "misjudged").getD (JVal.jbool false)) || gm
              let v := (vs.get? i).getD default
              let vs2 := vs.set i { v with misjudged := mis }
              let siRaw := (jLookupLast fs "sort_index").getD (JVal.jint 1)
              let fal2 := fal ++
                [{ fileIdx := i,
                   analysis := (jLookupLast fs "analysis").getD (JVal.jstr ""),
                   sort_index := siRaw, misjudged := mis }]
              match pyIntE siRaw with
              | Except.error _ => Except.error vs2
              | Except.ok si =>
                  let slots2 :=
                    if (slots.length : Int) < si then
                      slots ++ List.replicate (si.toNat - slots.length) none
                    else slots
                  let pos : Int := si - 1
                  let posN : Int := if pos < 0 then (slots2.length : Int) + pos else pos
                  if 0 ≤ posN ∧ posN < (slots2.length : Int) then
                    compEntryLoop gm rest vs2 (slots2.set posN.toNat (some i)) fal2
                  else Except.error vs2
      | _ => Except.error vs

/-- The default per-file analysis entries synthesized when no file resolved. -/
def defaultAnalysisList (vs : List FileVersion) : List FileAnalysisEntry :=
  (List.range vs.length).map (fun i =>
    { fileIdx := i, analysis := JVal.jstr ("文件 " ++ toString (i + 1) ++ " 的默认分析"),
      sort_index := JVal.jint ((i : Int) + 1), misjudged := false })

/-- Body of `VersionComparisonAnalyzer.parse_response` after the JSON was
parsed: resolve entries, propagate misjudgment, place into the sparse slot
array, compact, and fall back to the original order when nothing resolved. -/
def compCore (j : JVal) (versions : List FileVersion) :
    Except (List FileVersion) (CompResult × List FileVersion) :=
  match j with
  | JVal.jobj fs =>
      let gm := pyTruthy ((jLookupLast fs "group_misjudged").getD (JVal.jbool false))
      match pyIterE ((jLookupLast fs "files").getD (JVal.jarr [])) with
      | Except.error _ => Except.error versions
      | Except.ok fds =>
          match compEntryLoop gm fds versions [] [] with
          | Except.error vs2 => Except.error vs2
          | Except.ok (vs2, slots, fal) =>
              let sorted0 := (slots.filterMap id).map (fun i => (vs2.get? i).getD default)
              if sorted0.isEmpty then
                Except.ok ({ success := true, sorted_versions := vs2,
                             file_analysis_list := defaultAnalysisList vs2,
                             group_misjudged := gm, raw_response := "" }, vs2)
              else
                Except.ok ({ success := true, sorted_versions := sorted0,
                             file_analysis_list := fal,
                             group_misjudged := gm, raw_response := "" }, vs2)
  | _ => Except.error versions

/-- The failure dict of `VersionComparisonAnalyzer.parse_response` (the
`except` branch): `success=False`, the current version list as order,
`group_misjudged=True`, raw response preserved. -/
def failResult (response : String) (vs : List FileVersion) : CompResult :=
  { success := false, sorted_versions := vs, file_analysis_list := [],
    group_misjudged := true, raw_response := response }

/-- `VersionComparisonAnalyzer.parse_response`: parse, process, and absorb any
exception into the failure dict.  The second component is the final state of
the group's `FileVersion` objects. -/
def parse_response_comparison (response : String) (versions : List FileVersion) :
    CompResult × List FileVersion :=
  match parse_json_response response with
  | Except.error _ => (failResult response versions, versions)
  | Except.ok j =>
      match compCore j versions with
      | Except.error vs2 => (failResult response vs2, vs2)
      | Except.ok (res, vs2) => ({ res with raw_response := response }, vs2)

/-- Singleton group as built by the seed-driven loop in
`GitRescuerWorkflow.iterative_analysis` (base name from the normalizer). -/
def mkSeedSingle (v : FileVersion) : VersionGroup :=
  { base_name := JVal.jstr (normalize_filename v.ai_name), versions := [v] }

/-- The seed-driven loop of `GitRescuerWorkflow.iterative_analysis`.  `oracle`
maps a seed and its candidate pool to the raw response text of the iterative
analyzer; fuel is the remaining number of loop iterations (the source runs the
body for iteration counter 1..10).  Returns the groups formed and the pool
left over when the ceiling is hit.  The per-group comparison step orders a
group's members but never changes membership, so it is not part of this
membership-level embedding. -/
def iterLoopAux (oracle : FileVersion → List FileVersion → String) :
    Nat → List FileVersion → List VersionGroup × List FileVersion
  | 0, remaining => ([], remaining)
  | _ + 1, [] => ([], [])
  | fuel + 1, seed :: rest =>
      let remaining := seed :: rest
      let candidates := remaining.filter (fun v => v.original_hash ≠ seed.original_hash)
      if candidates.isEmpty then
        let gl := iterLoopAux oracle fuel rest
        (mkSeedSingle seed :: gl.1, gl.2)
      else
        let similars := parse_response_iterative (oracle seed candidates) candidates
        if similars.isEmpty then
          let gl := iterLoopAux oracle fuel rest
          (mkSeedSingle seed :: gl.1, gl.2)
        else
          let group_versions := seed :: similars
          let processed := group_versions.map (·.original_hash)
          let remaining2 := remaining.filter (fun v => v.original_hash ∉ processed)
          let gl := iterLoopAux oracle fuel remaining2
          ({ base_name := JVal.jstr (normalize_filename seed.ai_name),
             versions := group_versions } :: gl.1, gl.2)

/-- `GitRescuerWorkflow.iterative_analysis`, membership level: run the loop
with the 10-iteration ceiling, then force every leftover file into its own
singleton group. -/
def iterative_analysis_groups (oracle : FileVersion → List FileVersion → String)
    (versions : List FileVersion) : List VersionGroup :=
  let gl := iterLoopAux oracle 10 versions
  gl.1 ++ gl.2.map mkSeedSingle

/-- One pass of `AIAnalyzer._enforce_rate_limit` over one instance's timestamp
deque: drop timestamps older than 60s, sleep until the oldest kept timestamp
leaves the window (plus the 0.05s margin) when the window is full, then record
the call time.  Returns the recorded call time and the new deque. -/
def limiterStep (rpm : Nat) (ts : List Rat) (now : Rat) : Rat × List Rat :=
  let kept := ts.filter (fun t => now - t ≤ 60)
  let call := if rpm ≤ kept.length then kept.headD 0 + 60 + 1 / 20 else now
  (call, kept ++ [call])

/-- Sequential calls through ONE `AIAnalyzer` instance: each request enters at
its requested time or as soon as the previous call returned, whichever is
later; the returned list is the sequence of recorded call times. -/
def limiterRun (rpm : Nat) : List Rat → Rat → List Rat → List Rat
  | _, _, [] => []
  | ts, clock, r :: rs =>
      let now := max clock r
      let cs := limiterStep rpm ts now
      cs.1 :: limiterRun rpm cs.2 cs.1 rs

/-- Number of call timestamps inside the closed 60-second window starting
at `t`. -/
def windowCount (calls : List Rat) (t : Rat) : Nat :=
  calls.countP (fun c => decide (t ≤ c ∧ c ≤ t + 60))

/-- Calls issued by a whole process in which every oracle-calling analyzer owns
its own `AIAnalyzer` (hence its own timestamp deque), as
`AIAnalysisBase.__init__` constructs one fresh `AIAnalyzer` per analyzer: one
independent `limiterRun` per instance. -/
def processCalls (rpm : Nat) (schedules : List (List Rat)) : List Rat :=
  (schedules.map (limiterRun rpm [] 0)).flatten

/-- Extract the string of a JSON string value. -/
def jvalAsStr : JVal → Option String
  | JVal.jstr s => some s
  | _ => none

/-- Fixture constructor: a `FileVersion` with the fields the engine reads. -/
def mkFile (h ai sf : String) (mis : Bool := false) : FileVersion :=
  { original_filename := "", original_hash := h, ai_name := ai, ai_analysis := "",
    file_type := "", confidence := 0, suggested_filename := sf, misjudged := mis }

/-- Group members A, B, C used by the comparison-analyzer claims. -/
def fvA : FileVersion := mkFile "h1" "a1.txt" "fa"

/-- Second comparison fixture. -/
def fvB : FileVersion := mkFile "h2" "a2.txt" "fb"

/-- Third comparison fixture. -/
def fvC : FileVersion := mkFile "h3" "a3.txt" "fc"

/-- A fixture whose `misjudged` flag was already true before parsing. -/
def fvPrior : FileVersion := mkFile "h1" "a1.txt" "fa" true

/-- The pool of the spec's fallback example (§8): ai names `report_v1.txt`,
`report_v2.txt`, `notes.txt`. -/
def poolSpecExample : List FileVersion :=
  [mkFile "h1" "report_v1.txt" "report_v1_ab.txt",
   mkFile "h2" "report_v2.txt" "report_v2_cd.txt",
   mkFile "h3" "notes.txt" "notes_ef.txt"]

/-- A pool whose first two ai names actually normalize to the same base
(`report_1.txt` and `report_2.txt` both normalize to `report`). -/
def poolReportPair : List FileVersion :=
  [mkFile "h1" "report_1.txt" "report_1_ab.txt",
   mkFile "h2" "report_2.txt" "report_2_cd.txt",
   mkFile "h3" "notes.txt" "notes_ef.txt"]

/-- An oracle stub that always returns zero matches. -/
def zeroOracle : FileVersion → List FileVersion → String :=
  fun _ _ => "\x7b\"similar_files\": []\x7d"

/-- A pool of 15 distinct files. -/
def pool15 : List FileVersion :=
  (List.range 15).map (fun i => mkFile ("h" ++ toString i) ("n" ++ toString i ++ ".txt") ("f" ++ toString i))

/-- Comparison response giving sort indices 2, 1, 3 to files fa, fb, fc. -/
def respSort213 : String :=
  "\x7b\"group_misjudged\": false, \"files\": [\x7b\"filename\": \"fa\", \"sort_index\": 2\x7d, \x7b\"filename\": \"fb\", \"sort_index\": 1\x7d, \x7b\"filename\": \"fc\", \"sort_index\": 3\x7d]\x7d"

/-- Comparison response giving duplicate sort indices 1, 1, 3 to fa, fb, fc. -/
def respSort113 : String :=
  "\x7b\"files\": [\x7b\"filename\": \"fa\", \"sort_index\": 1\x7d, \x7b\"filename\": \"fb\", \"sort_index\": 1\x7d, \x7b\"filename\": \"fc\", \"sort_index\": 3\x7d]\x7d"

/-- Comparison response with `group_misjudged` true whose FIRST entry carries
`sort_index` 0: placing it indexes the empty slot list at position -1 and
raises, so the second entry is never processed. -/
def respGmSortZero : String :=
  "\x7b\"group_misjudged\": true, \"files\": [\x7b\"filename\": \"fa\", \"sort_index\": 0, \"misjudged\": false\x7d, \x7b\"filename\": \"fb\", \"sort_index\": 1, \"misjudged\": false\x7d]\x7d"

/-- Comparison response with a single entry whose `sort_index` 0 raises AFTER
the entry's `misjudged` flag was already written. -/
def respSortZeroOnly : String :=
  "\x7b\"files\": [\x7b\"filename\": \"fa\", \"sort_index\": 0, \"misjudged\": false\x7d]\x7d"

/-- Modelled from the amended wording of C3: the brace-span extraction is
attempted FIRST and its parse result is final when a span exists; the direct
parse of the whole text happens only when there is no brace span. -/
def parseJsonRegexFirstSpec (response : String) : Except Unit JVal :=
  match extractBraceSpan response with
  | some span =>
      match jsonLoads span with
      | some v => Except.ok v
      | none => Except.error ()
  | none =>
      match jsonLoads response with
      | some v => Except.ok v
      | none => Except.error ()

/-- A well-typed entry of a comparison response's `files` array. -/
structure CompEntryS where
  filename : String
  sort_index : Int
  misjudged : Bool
deriving DecidableEq

/-- JSON encoding of a well-typed comparison entry. -/
def encEntry (e : CompEntryS) : JVal :=
  JVal.jobj [("filename", JVal.jstr e.filename),
             ("sort_index", JVal.jint e.sort_index),
             ("misjudged", JVal.jbool e.misjudged)]

/-- JSON encoding of a whole comparison response. -/
def encCompResp (gm : Bool) (es : List CompEntryS) : JVal :=
  JVal.jobj [("group_misjudged", JVal.jbool gm),
             ("files", JVal.jarr (es.map encEntry))]

/-- Final state of the group's `FileVersion` objects after
`VersionComparisonAnalyzer.parse_response` processed a parsed response
(mutations survive whether or not an exception aborted the loop). -/
def compStateOf (j : JVal) (versions : List FileVersion) : List FileVersion :=
  match compCore j versions with
  | Except.ok out => out.2
  | Except.error vs => vs

/-- The response object `{"groups": [...]}` around a groups array. -/
def mkGroupsResp (gs : List JVal) : JVal :=
  JVal.jobj [("groups", JVal.jarr gs)]

/-- The integer entries of a group datum's `file_indices` value (the indices
the batch loop reads; exact on every response the loop accepts). -/
def rawGroupIndices (gd : JVal) : List Int :=
  match gd with
  | JVal.jobj fs =>
      match (jLookupLast fs "file_indices").getD (JVal.jarr []) with
      | JVal.jarr xs =>
          xs.filterMap (fun x =>
            match x with
            | JVal.jint n => some n
            | JVal.jbool b => some (if b then 1 else 0)
            | _ => none)
      | _ => []
  | _ => []

/-- All in-range index references of a groups array, in order, with
multiplicity. -/
def validIndexList (gs : List JVal) (n : Nat) : List Int :=
  gs.flatMap (fun gd => (rawGroupIndices gd).filter (fun k => decide (1 ≤ k ∧ k ≤ (n : Int))))

/-- A well-typed group of a batch response: a name and a list of integer file
indices (the shape the prompt asks the oracle to produce). -/
structure GroupS where
  name : String
  indices : List Int
deriving DecidableEq

/-- JSON encoding of a well-typed batch group. -/
def encGroup (g : GroupS) : JVal :=
  JVal.jobj [("group_name", JVal.jstr g.name),
             ("file_indices", JVal.jarr (g.indices.map JVal.jint))]

/-- All in-range index references of a list of well-typed groups, in order,
with multiplicity. -/
def groupRefs (gs : List GroupS) (n : Nat) : List Int :=
  gs.flatMap (fun g => g.indices.filter (fun k => decide (1 ≤ k ∧ k ≤ (n : Int))))

/-- A batch response whose two groups BOTH reference file index 1. -/
def respDupIdx : String :=
  "\x7b\"groups\": [\x7b\"group_name\": \"g\", \"file_indices\": [1]\x7d, \x7b\"group_name\": \"h\", \"file_indices\": [1]\x7d]\x7d"

/-- The group the batch loop keeps (or drops) for one well-typed group datum:
dropped exactly when none of its indices is in range. -/
def encKeep (versions : List FileVersion) (g : GroupS) : Option VersionGroup :=
  if ((g.indices.filter (fun k => decide (1 ≤ k ∧ k ≤ (versions.length : Int)))).map
        (resolveIdx versions)) = [] then none
  else some { base_name := JVal.jstr g.name,
              versions := (g.indices.filter
                  (fun k => decide (1 ≤ k ∧ k ≤ (versions.length : Int)))).map
                (resolveIdx versions),
              reasoning := JVal.jstr "" }

/-- The completeness singleton produced for an index, none when the index was
referenced in range. -/
def singleKeepV (versions : List FileVersion) (refs : List Int) (i : Nat) :
    Option VersionGroup :=
  if ((i : Int) + 1) ∈ refs then none
  else some (mkSingleGroup (resolveIdx versions ((i : Int) + 1)))

/-- The resolved member of the completeness singleton for an index. -/
def singleKeepF (versions : List FileVersion) (refs : List Int) (i : Nat) :
    Option FileVersion :=
  if ((i : Int) + 1) ∈ refs then none
  else some (resolveIdx versions ((i : Int) + 1))

/-- C3 (counterexample): on the raw response `[{"a": 1}, {"b": 2}]` — a valid
JSON array — the direct-parse-first order asserted by the claim succeeds, but
`parse_json_response` finds the brace span `{"a": 1}, {"b": 2}` FIRST, and its
parse fails, so the code raises instead.  The claimed attempt order is
therefore not the code's. -/
theorem C3_counterexample :
    (parseJsonSpecOrder "[\x7b\"a\": 1\x7d, \x7b\"b\": 2\x7d]").toOption.isSome = true ∧
    (parse_json_response "[\x7b\"a\": 1\x7d, \x7b\"b\": 2\x7d]").toOption.isSome = false := by
  decide

/-- C5: ordering reconstruction.  With resolved files [A, B, C], sort indices
[2, 1, 3] produce the sequence [B, A, C]; duplicate indices [1, 1, 3] overwrite
the duplicated slot and compaction removes the gap, leaving [B, C] of length 2. -/
theorem C5_ordering_reconstruction :
    ((parse_response_comparison respSort213 [fvA, fvB, fvC]).1.success = true ∧
      (parse_response_comparison respSort213 [fvA, fvB, fvC]).1.sorted_versions = [fvB, fvA, fvC]) ∧
    ((parse_response_comparison respSort113 [fvA, fvB, fvC]).1.success = true ∧
      (parse_response_comparison respSort113 [fvA, fvB, fvC]).1.sorted_versions = [fvB, fvC] ∧
      (parse_response_comparison respSort113 [fvA, fvB, fvC]).1.sorted_versions.length = 2) := by
  decide

/-- C7 (counterexample): `group_misjudged` is true and every entry has
`misjudged` false, and both entries' filenames resolve (to fa and fb), yet the
final flags are [true, false]: the first entry's `sort_index` 0 raises during
placement, so fb's flag is never written. -/
theorem C7_counterexample :
    (fvB.suggested_filename = "fb") ∧
    ((parse_response_comparison respGmSortZero [fvA, fvB]).2.map (·.misjudged)) = [true, false] ∧
    (parse_response_comparison respGmSortZero [fvA, fvB]).1.success = false := by
  decide

/-- C9 (counterexample): `report_v1.txt` does NOT normalize to `report` (the
`[-_]v?\d+\.\d+` pattern needs a dot and the extension is already stripped), so
feeding a non-JSON response with the spec's example pool produces NO groups at
all — every file has a distinct normalized name and all singletons are
dropped — rather than the claimed one group of size 2. -/
theorem C9_counterexample :
    normalize_filename "report_v1.txt" = "report_v1" ∧
    (parse_response_batch "This is not a JSON response" poolSpecExample).map
      (fun g => g.versions.map (·.original_hash)) = [] := by
  decide

/-- C10 (counterexample): a `misjudged` write CAN happen on a failing path.
`fvPrior.misjudged` is true beforehand; the response parses as JSON, its only
entry resolves fa and overwrites the flag to false, and then its `sort_index` 0
raises, so `parse_response` returns `success=false` with the flag changed. -/
theorem C10_counterexample :
    fvPrior.misjudged = true ∧
    (parse_response_comparison respSortZeroOnly [fvPrior, fvB]).1.success = false ∧
    ((parse_response_comparison respSortZeroOnly [fvPrior, fvB]).2.map (·.misjudged)) = [false, false] := by
  decide

/-- The loop body of `iterative_analysis` runs at most `fuel` times, producing
at most one group per run. -/
theorem iterLoopAux_length_le (oracle : FileVersion → List FileVersion → String) :
    ∀ (fuel : Nat) (rem : List FileVersion), (iterLoopAux oracle fuel rem).1.length ≤ fuel := by
  intro fuel
  induction fuel with
  | zero => intro rem; simp [iterLoopAux]
  | succ n ih =>
      intro rem
      cases rem with
      | nil => simp [iterLoopAux]
      | cons seed rest =>
          unfold iterLoopAux
          simp only []
          split
          · simpa using Nat.succ_le_succ (ih rest)
          · split
            · simpa using Nat.succ_le_succ (ih rest)
            · simpa using Nat.succ_le_succ (ih _)

/-- C6: iteration ceiling and termination.  With the always-zero-matches oracle
a pool of 15 files yields exactly the 15 singleton groups (the first 10 formed
by the loop, the remaining 5 forced when the ceiling is hit); and for EVERY
oracle and pool, the loop body runs at most 10 times (the model is a total
function, so termination is by construction). -/
theorem C6_iteration_ceiling :
    (iterative_analysis_groups zeroOracle pool15 = pool15.map mkSeedSingle ∧
      (iterative_analysis_groups zeroOracle pool15).length = 15) ∧
    (∀ (oracle : FileVersion → List FileVersion → String) (versions : List FileVersion),
      (iterLoopAux oracle 10 versions).1.length ≤ 10) :=
  ⟨by decide, fun oracle versions => iterLoopAux_length_le oracle 10 versions⟩

/-- C3 (amended): `parse_json_response` extracts the brace span first and
parses it, direct-parsing the whole text only when no span exists; moreover the
code's order and the spec's claimed direct-parse-first order agree whenever the
direct parse fails or the text has no brace span (they differ only on raw text
that is itself valid JSON while containing a brace span, as the counterexample
shows). -/
theorem C3_amended (r : String) :
    parse_json_response r = parseJsonRegexFirstSpec r ∧
    ((jsonLoads r).isNone = true ∨ (extractBraceSpan r).isNone = true →
      parse_json_response r = parseJsonSpecOrder r) := by
  constructor
  · rfl
  · intro h
    unfold parse_json_response parseJsonSpecOrder
    rcases h with h | h
    · rw [Option.isNone_iff_eq_none] at h
      rw [h]
    · rw [Option.isNone_iff_eq_none] at h
      rw [h]

/-- Witness for C3 (amended) at the raw text `garbage` (no brace span, direct
parse fails). -/
theorem C3_amended_witness :
    parse_json_response "garbage" = parseJsonRegexFirstSpec "garbage" ∧
    parse_json_response "garbage" = parseJsonSpecOrder "garbage" :=
  ⟨(C3_amended "garbage").1, (C3_amended "garbage").2 (Or.inl (by decide))⟩

/-- C8 (counterexample): a positive `preview_length` does NOT return the
content truncated to `preview_length` characters (three dots are appended:
6 characters for `abcdef` at limit 3), and the `-1` sentinel respects no
absolute maximum whatsoever — no bound `M` caps all previews. -/
theorem C8_counterexample :
    get_content_preview "abcdef" 3 = "abc..." ∧
    ¬(∃ M : Nat, ∀ content : String, (get_content_preview content (-1)).length ≤ M) := by
  constructor
  · decide
  · rintro ⟨M, h⟩
    have h2 := h (String.mk (List.replicate (M + 1) 'a'))
    have h3 : get_content_preview (String.mk (List.replicate (M + 1) 'a')) (-1) =
        String.mk (List.replicate (M + 1) 'a') := by
      simp [get_content_preview]
    rw [h3] at h2
    simp [String.length] at h2

/-- C8 (amended): a positive `preview_length` keeps short content verbatim and
truncates longer content to `preview_length` characters PLUS a three-dot
ellipsis; `-1` returns the content with no guard at this layer (the
`max_content_length` guard lives in the separate single-file analysis path,
`AIAnalyzer.analyze_file_with_ai`); `0` yields the empty string. -/
theorem C8_amended (content : String) (n : Int) :
    (0 < n → get_content_preview content n =
      (if (content.data.length : Int) > n then String.mk (content.data.take n.toNat) ++ "..."
       else content)) ∧
    get_content_preview content (-1) = content ∧
    get_content_preview content 0 = "" := by
  refine ⟨fun hn => ?_, ?_, ?_⟩
  · unfold get_content_preview pySliceTo
    rw [if_neg (by omega), if_neg (by omega)]
    split
    · rw [if_pos (by omega)]
    · rfl
  · simp [get_content_preview]
  · simp [get_content_preview]

/-- Witness for C8 (amended) at content `hello`, limit 2. -/
theorem C8_amended_witness :
    get_content_preview "hello" 2 =
      (if (("hello" : String).data.length : Int) > 2 then
        String.mk (("hello" : String).data.take (2 : Int).toNat) ++ "..."
       else "hello") ∧
    get_content_preview "hello" (-1) = "hello" ∧
    get_content_preview "hello" 0 = "" :=
  ⟨(C8_amended "hello" 2).1 (by norm_num), (C8_amended "hello" 2).2.1,
   (C8_amended "hello" 2).2.2⟩

/-- C10 (amended): when JSON parsing itself fails, `parse_response` returns the
failure dict — `success=false`, the group's original order, `group_misjudged`
true, raw response preserved — and no `FileVersion` is mutated.  (Writes can
still happen on failure paths that abort AFTER a successful JSON parse, as the
counterexample shows, so "only the successful-parse path writes" is dropped.) -/
theorem C10_amended (response : String) (versions : List FileVersion)
    (h : parse_json_response response = Except.error ()) :
    parse_response_comparison response versions = (failResult response versions, versions) := by
  unfold parse_response_comparison
  rw [h]

/-- Witness for C10 (amended) at the unparseable response `garbage`. -/
theorem C10_amended_witness :
    parse_response_comparison "garbage" [fvA, fvB] =
      (failResult "garbage" [fvA, fvB], [fvA, fvB]) :=
  C10_amended "garbage" [fvA, fvB] (by rfl)

/-- Every bucket of the fallback's `name_groups` map holds exactly the files
whose normalized `ai_name` equals its key. -/
theorem addNamed_names (m : List (String × List FileVersion)) (k : String) (v : FileVersion)
    (hm : ∀ e ∈ m, ∀ w ∈ e.2, normalize_filename w.ai_name = e.1)
    (hv : normalize_filename v.ai_name = k) :
    ∀ e ∈ addNamed m k v, ∀ w ∈ e.2, normalize_filename w.ai_name = e.1 := by
  intro e he w hw
  unfold addNamed at he
  split at he
  · simp only [List.mem_map] at he
    obtain ⟨e0, he0, heq⟩ := he
    by_cases hk : e0.1 = k
    · rw [if_pos hk] at heq
      subst heq
      simp only [List.mem_append, List.mem_singleton] at hw
      rcases hw with hw | hw
      · exact hm e0 he0 w hw
      · subst hw; rw [hv, hk]
    · rw [if_neg hk] at heq
      subst heq
      exact hm e0 he0 w hw
  · rcases List.mem_append.mp he with he' | he'
    · exact hm e he' w hw
    · simp only [List.mem_singleton] at he'
      subst he'
      simp only [List.mem_singleton] at hw
      subst hw
      exact hv

/-- The `name_groups` invariant holds after folding any list of versions. -/
theorem foldl_addNamed_names (versions : List FileVersion) :
    ∀ m, (∀ e ∈ m, ∀ w ∈ e.2, normalize_filename w.ai_name = e.1) →
    ∀ e ∈ versions.foldl (fun m v => addNamed m (normalize_filename v.ai_name) v) m,
      ∀ w ∈ e.2, normalize_filename w.ai_name = e.1 := by
  induction versions with
  | nil => intro m hm e he; exact hm e he
  | cons v vs ih =>
      intro m hm e he
      exact ih (addNamed m (normalize_filename v.ai_name) v)
        (addNamed_names m _ v hm rfl) e he

/-- Membership description of the fallback's output groups. -/
theorem fallback_grouping_mem (versions : List FileVersion) (g : VersionGroup)
    (hg : g ∈ fallback_grouping versions) :
    2 ≤ g.versions.length ∧
    ∀ v ∈ g.versions, g.base_name = JVal.jstr (normalize_filename v.ai_name) := by
  unfold fallback_grouping at hg
  rw [List.mem_filterMap] at hg
  obtain ⟨e, he, hfe⟩ := hg
  have hnames := foldl_addNamed_names versions [] (by intro e' he'; cases he') e he
  split at hfe
  · next hlen =>
      have hg' : g = { base_name := JVal.jstr e.1, versions := e.2 } := by
        injection hfe with h'
        exact h'.symm
      subst hg'
      refine ⟨by simpa using hlen, ?_⟩
      intro v hv
      simp only
      rw [hnames v hv]
  · cases hfe

/-- C9 (amended): the mechanism stands — on an unparseable response the batch
analyzer groups purely by normalized-name equality and keeps only groups of at
least two members — but the spec's example pool is wrong: `report_v1.txt`
normalizes to `report_v1`, not `report`.  With ai names `report_1.txt` and
`report_2.txt` (both normalizing to `report`) a non-JSON response yields
exactly one group of size 2 and drops the `notes` singleton. -/
theorem C9_amended :
    (∀ (versions : List FileVersion) (g : VersionGroup), g ∈ fallback_grouping versions →
      2 ≤ g.versions.length ∧
      ∀ v ∈ g.versions, g.base_name = JVal.jstr (normalize_filename v.ai_name)) ∧
    (parse_response_batch "This is not a JSON response" poolReportPair).map
      (fun g => (g.base_name, g.versions.map (·.original_hash))) =
      [(JVal.jstr "report", ["h1", "h2"])] :=
  ⟨fallback_grouping_mem, by decide⟩

/-- Witness for C9 (amended): the single fallback group of the corrected pool
has two members, both normalizing to its base name. -/
theorem C9_amended_witness :
    2 ≤ ((fallback_grouping poolReportPair).headD default).versions.length ∧
    ∀ v ∈ ((fallback_grouping poolReportPair).headD default).versions,
      ((fallback_grouping poolReportPair).headD default).base_name =
        JVal.jstr (normalize_filename v.ai_name) :=
  C9_amended.1 poolReportPair ((fallback_grouping poolReportPair).headD default) (by decide)

/-- A successful resolution points at an in-range version whose suggested
filename matches. -/
theorem findVersionIdx_some (fn : JVal) :
    ∀ (vs : List FileVersion) (i : Nat), findVersionIdx fn vs = some i →
      ∃ v, vs.get? i = some v ∧ jvalIsStr fn v.suggested_filename = true := by
  intro vs
  induction vs with
  | nil => intro i h; cases h
  | cons h0 t ih =>
      intro i h
      unfold findVersionIdx at h
      split at h
      · next hp =>
          injection h with h'
          subst h'
          exact ⟨h0, rfl, hp⟩
      · next hp =>
          cases hm : findVersionIdx fn t with
          | none => rw [hm] at h; cases h
          | some j =>
              rw [hm] at h
              injection h with h'
              obtain ⟨v, hv, hvp⟩ := ih j hm
              subst h'
              exact ⟨v, by simpa using hv, hvp⟩

/-- Under distinct suggested filenames, resolution finds exactly the index of
the matching version. -/
theorem findVersionIdx_of_nodup :
    ∀ (vs : List FileVersion) (i : Nat) (v : FileVersion) (s : String),
    (vs.map (·.suggested_filename)).Nodup →
    vs.get? i = some v → v.suggested_filename = s →
    findVersionIdx (JVal.jstr s) vs = some i := by
  intro vs
  induction vs with
  | nil => intro i v s _ hg _; cases hg
  | cons h0 t ih =>
      intro i v s hnd hg hs
      rw [List.map_cons, List.nodup_cons] at hnd
      cases i with
      | zero =>
          have hv : h0 = v := by simpa using hg
          subst hv
          unfold findVersionIdx
          rw [if_pos (by simp [jvalIsStr, hs])]
      | succ n =>
          have hg' : t.get? n = some v := by simpa using hg
          have hne : ¬(jvalIsStr (JVal.jstr s) h0.suggested_filename = true) := by
            simp only [jvalIsStr, decide_eq_true_eq]
            intro heq
            apply hnd.1
            have hvm : v ∈ t := List.get?_mem hg'
            have : v.suggested_filename ∈ t.map (·.suggested_filename) :=
              List.mem_map_of_mem _ hvm
            rw [hs] at this
            rw [heq] at this
            exact this
          unfold findVersionIdx
          rw [if_neg hne, ih n v s hnd.2 hg' hs]
          rfl

/-- One step of the entry loop on an encoded well-typed entry, unfolded. -/
theorem compEntryLoop_enc_cons (gm : Bool) (e : CompEntryS) (rest : List JVal)
    (vs : List FileVersion) (slots : List (Option Nat)) (fal : List FileAnalysisEntry) :
    compEntryLoop gm (encEntry e :: rest) vs slots fal =
      (match findVersionIdx (JVal.jstr e.filename) vs with
       | none => compEntryLoop gm rest vs slots fal
       | some i =>
          let mis := e.misjudged || gm
          let v := (vs.get? i).getD default
          let vs2 := vs.set i { v with misjudged := mis }
          let fal2 := fal ++ [{ fileIdx := i, analysis := JVal.jstr "",
                                sort_index := JVal.jint e.sort_index, misjudged := mis }]
          let slots2 :=
            if (slots.length : Int) < e.sort_index then
              slots ++ List.replicate (e.sort_index.toNat - slots.length) none
            else slots
          let pos : Int := e.sort_index - 1
          let posN : Int := if pos < 0 then (slots2.length : Int) + pos else pos
          if 0 ≤ posN ∧ posN < (slots2.length : Int) then
            compEntryLoop gm rest vs2 (slots2.set posN.toNat (some i)) fal2
          else Except.error vs2) := by
  rfl

/-- Processing well-typed entries with positive sort indices never raises; it
preserves the suggested filenames, only ever raises `misjudged` flags when the
group is misjudged, and (under distinct filenames) sets the flag of every
version some entry resolves to. -/
theorem compEntryLoop_enc_ok (es : List CompEntryS) :
    ∀ (vs : List FileVersion) (slots : List (Option Nat)) (fal : List FileAnalysisEntry),
    (∀ e ∈ es, 1 ≤ e.sort_index) →
    ∃ vs' slots' fal',
      compEntryLoop true (es.map encEntry) vs slots fal = Except.ok (vs', slots', fal') ∧
      vs'.map (·.suggested_filename) = vs.map (·.suggested_filename) ∧
      (∀ i, ((vs.get? i).map (·.misjudged)) = some true →
        ((vs'.get? i).map (·.misjudged)) = some true) ∧
      ((vs.map (·.suggested_filename)).Nodup →
        ∀ i v, vs.get? i = some v → (∃ e ∈ es, e.filename = v.suggested_filename) →
          ((vs'.get? i).map (·.misjudged)) = some true) := by
  induction es with
  | nil =>
      intro vs slots fal _
      refine ⟨vs, slots, fal, rfl, rfl, fun i h => h, ?_⟩
      intro _ i v _ hmatch
      obtain ⟨e, he, _⟩ := hmatch
      cases he
  | cons e es ih =>
      intro vs slots fal hsort
      rw [List.map_cons, compEntryLoop_enc_cons]
      cases hf : findVersionIdx (JVal.jstr e.filename) vs with
      | none =>
          obtain ⟨vs', slots', fal', hrun, hsugg, hmono, hmatch⟩ :=
            ih vs slots fal (fun e' he' => hsort e' (List.mem_cons_of_mem _ he'))
          refine ⟨vs', slots', fal', hrun, hsugg, hmono, ?_⟩
          intro hnd i v hg hex
          obtain ⟨e', he', hfn⟩ := hex
          rcases List.mem_cons.mp he' with he' | he'
          · subst he'
            rw [findVersionIdx_of_nodup vs i v e'.filename hnd hg hfn.symm] at hf
            cases hf
          · exact hmatch hnd i v hg ⟨e', he', hfn⟩
      | some i0 =>
          obtain ⟨v0, hv0, _⟩ := findVersionIdx_some _ vs i0 hf
          have hi0 : i0 < vs.length := by
            by_contra hlt
            rw [List.get?_eq_none.mpr (by omega)] at hv0
            cases hv0
          have hsort0 : 1 ≤ e.sort_index := hsort e (List.mem_cons_self _ _)
          simp only []
          set mis := e.misjudged || true with hmis
          have hmis' : mis = true := by simp [hmis]
          set vA := (vs.get? i0).getD default with hvA
          have hvAv : vA = v0 := by rw [hvA, hv0]; rfl
          set vs2 := vs.set i0 { vA with misjudged := mis } with hvs2
          set slots2 :=
            (if (slots.length : Int) < e.sort_index then
              slots ++ List.replicate (e.sort_index.toNat - slots.length) none
            else slots) with hslots2
          have hlen2 : e.sort_index ≤ (slots2.length : Int) := by
            rw [hslots2]
            split
            · next hcase =>
                simp only [List.length_append, List.length_replicate]
                omega
            · next hcase => omega
          have hcond : 0 ≤ e.sort_index - 1 ∧ e.sort_index - 1 < (slots2.length : Int) := by omega
          rw [if_neg (by omega : ¬(e.sort_index - 1 < (0 : Int)))]
          rw [if_pos hcond]
          obtain ⟨vs', slots', fal', hrun, hsugg, hmono, hmatch⟩ :=
            ih vs2 (slots2.set (e.sort_index - 1).toNat (some i0)) _
              (fun e' he' => hsort e' (List.mem_cons_of_mem _ he'))
          have hsugg2 : vs2.map (·.suggested_filename) = vs.map (·.suggested_filename) := by
            rw [hvs2, List.map_set]
            apply List.ext_get?
            intro j
            rw [List.get?_set]
            split
            · next hj =>
                subst hj
                rw [List.get?_map, hv0, hvAv]
                simp
            · rfl
          have hflag2 : ((vs2.get? i0).map (·.misjudged)) = some true := by
            rw [hvs2, List.get?_set_eq, hmis']
            simp [hi0]
          have hmono2 : ∀ i, ((vs.get? i).map (·.misjudged)) = some true →
              ((vs2.get? i).map (·.misjudged)) = some true := by
            intro i hi
            by_cases hii : i = i0
            · subst hii; exact hflag2
            · rw [hvs2, List.get?_set_ne _ _ (by omega)]
              exact hi
          refine ⟨vs', slots', fal', hrun, hsugg.trans hsugg2, ?_, ?_⟩
          · intro i hi
            exact hmono i (hmono2 i hi)
          · intro hnd i v hg hex
            obtain ⟨e', he', hfn⟩ := hex
            rcases List.mem_cons.mp he' with he' | he'
            · subst he'
              rw [findVersionIdx_of_nodup vs i v e'.filename hnd hg hfn.symm] at hf
              injection hf with hf'
              subst hf'
              exact hmono i hflag2
            · have hnd2 : (vs2.map (·.suggested_filename)).Nodup := by
                rw [hsugg2]; exact hnd
              have hg2 : ∃ v2, vs2.get? i = some v2 ∧ v2.suggested_filename = v.suggested_filename := by
                by_cases hii : i = i0
                · subst hii
                  refine ⟨{ vA with misjudged := mis }, ?_, ?_⟩
                  · rw [hvs2, List.get?_set_eq]
                    simp [hi0]
                  · rw [hvAv]
                    have : v0 = v := by rw [hv0] at hg; injection hg
                    rw [this]
                · refine ⟨v, ?_, rfl⟩
                  rw [hvs2, List.get?_set_ne _ _ (by omega)]
                  exact hg
              obtain ⟨v2, hg2, hs2⟩ := hg2
              exact hmatch hnd2 i v2 hg2 ⟨e', he', by rw [hfn, ← hs2]⟩

/-- `compCore` on an encoded response, unfolded to the entry loop. -/
theorem compCore_enc (gmB : Bool) (es : List CompEntryS) (versions : List FileVersion) :
    compCore (encCompResp gmB es) versions =
      (match compEntryLoop gmB (es.map encEntry) versions [] [] with
       | Except.error vs2 => Except.error vs2
       | Except.ok (vs2, slots, fal) =>
          let sorted0 := (slots.filterMap id).map (fun i => (vs2.get? i).getD default)
          if sorted0.isEmpty then
            Except.ok ({ success := true, sorted_versions := vs2,
                         file_analysis_list := defaultAnalysisList vs2,
                         group_misjudged := gmB, raw_response := "" }, vs2)
          else
            Except.ok ({ success := true, sorted_versions := sorted0,
                         file_analysis_list := fal,
                         group_misjudged := gmB, raw_response := "" }, vs2)) := by
  rfl

/-- C7 (amended): on a well-typed comparison response whose entries all carry a
POSITIVE `sort_index` (so that placement cannot raise: the counterexample shows
a zero `sort_index` aborts the loop and leaves later entries unwritten) with
`group_misjudged` true and every entry's `misjudged` false, the parse succeeds
and every version some entry resolves to — under distinct suggested
filenames — ends with `misjudged` true. -/
theorem C7_amended (versions : List FileVersion) (es : List CompEntryS)
    (hnd : (versions.map (·.suggested_filename)).Nodup)
    (hsort : ∀ e ∈ es, 1 ≤ e.sort_index)
    (_hmis : ∀ e ∈ es, e.misjudged = false) :
    (compCore (encCompResp true es) versions).isOk = true ∧
    ∀ i v, versions.get? i = some v →
      (∃ e ∈ es, e.filename = v.suggested_filename) →
      ((compStateOf (encCompResp true es) versions).get? i).map (·.misjudged) = some true := by
  obtain ⟨vs', slots', fal', hrun, _, _, hmatch⟩ :=
    compEntryLoop_enc_ok es versions [] [] hsort
  constructor
  · rw [compCore_enc, hrun]
    simp only []
    split <;> rfl
  · intro i v hg hex
    have hred : compCore (encCompResp true es) versions =
        (if (((slots'.filterMap id).map (fun i => (vs'.get? i).getD default)).isEmpty) then
          Except.ok ({ success := true, sorted_versions := vs',
                       file_analysis_list := defaultAnalysisList vs',
                       group_misjudged := true, raw_response := "" }, vs')
        else
          Except.ok ({ success := true,
                       sorted_versions :=
                         (slots'.filterMap id).map (fun i => (vs'.get? i).getD default),
                       file_analysis_list := fal',
                       group_misjudged := true, raw_response := "" }, vs')) := by
      rw [compCore_enc, hrun]
    have hstate : compStateOf (encCompResp true es) versions = vs' := by
      unfold compStateOf
      by_cases hcase :
          ((slots'.filterMap id).map (fun i => (vs'.get? i).getD default)).isEmpty = true
      · rw [hred, if_pos hcase]
      · rw [hred, if_neg hcase]
    rw [hstate]
    exact hmatch hnd i v hg hex

/-- Witness for C7 (amended): group [fa, fb], entries resolving both files with
sort indices 1 and 2, group-level misjudgment true: both final flags are true. -/
theorem C7_amended_witness :
    (compCore (encCompResp true [⟨"fa", 1, false⟩, ⟨"fb", 2, false⟩]) [fvA, fvB]).isOk = true ∧
    ((compStateOf (encCompResp true [⟨"fa", 1, false⟩, ⟨"fb", 2, false⟩]) [fvA, fvB]).get? 1).map
      (·.misjudged) = some true :=
  ⟨(C7_amended [fvA, fvB] [⟨"fa", 1, false⟩, ⟨"fb", 2, false⟩] (by decide)
      (by decide) (by decide)).1,
   (C7_amended [fvA, fvB] [⟨"fa", 1, false⟩, ⟨"fb", 2, false⟩] (by decide)
      (by decide) (by decide)).2 1 fvB (by decide) ⟨⟨"fb", 2, false⟩, by decide, by decide⟩⟩

/-- C4 (counterexample): normalization is not idempotent.  `a.b.c` normalizes
to `a.b` (one `splitext` strips one extension), and a second application
strips again, giving `a`. -/
theorem C4_counterexample :
    normalize_filename (normalize_filename "a.b.c") ≠ normalize_filename "a.b.c" := by
  decide

/-- Case description of `lowerChar`: either the character is untouched or it
is one specific upper-case letter mapped to its lower-case form. -/
theorem lowerChar_cases (c : Char) : lowerChar c = c ∨
    (c = 'A' ∧ lowerChar c = 'a') ∨
    (c = 'B' ∧ lowerChar c = 'b') ∨
    (c = 'C' ∧ lowerChar c = 'c') ∨
    (c = 'D' ∧ lowerChar c = 'd') ∨
    (c = 'E' ∧ lowerChar c = 'e') ∨
    (c = 'F' ∧ lowerChar c = 'f') ∨
    (c = 'G' ∧ lowerChar c = 'g') ∨
    (c = 'H' ∧ lowerChar c = 'h') ∨
    (c = 'I' ∧ lowerChar c = 'i') ∨
    (c = 'J' ∧ lowerChar c = 'j') ∨
    (c = 'K' ∧ lowerChar c = 'k') ∨
    (c = 'L' ∧ lowerChar c = 'l') ∨
    (c = 'M' ∧ lowerChar c = 'm') ∨
    (c = 'N' ∧ lowerChar c = 'n') ∨
    (c = 'O' ∧ lowerChar c = 'o') ∨
    (c = 'P' ∧ lowerChar c = 'p') ∨
    (c = 'Q' ∧ lowerChar c = 'q') ∨
    (c = 'R' ∧ lowerChar c = 'r') ∨
    (c = 'S' ∧ lowerChar c = 's') ∨
    (c = 'T' ∧ lowerChar c = 't') ∨
    (c = 'U' ∧ lowerChar c = 'u') ∨
    (c = 'V' ∧ lowerChar c = 'v') ∨
    (c = 'W' ∧ lowerChar c = 'w') ∨
    (c = 'X' ∧ lowerChar c = 'x') ∨
    (c = 'Y' ∧ lowerChar c = 'y') ∨
    (c = 'Z' ∧ lowerChar c = 'z') := by
  unfold lowerChar
  split <;> simp_all

/-- Lower-casing is idempotent on characters. -/
theorem lowerChar_lowerChar (c : Char) : lowerChar (lowerChar c) = lowerChar c := by
  rcases lowerChar_cases c with h | ⟨hc, h⟩ | ⟨hc, h⟩ | ⟨hc, h⟩ | ⟨hc, h⟩ | ⟨hc, h⟩ | ⟨hc, h⟩ | ⟨hc, h⟩ | ⟨hc, h⟩ | ⟨hc, h⟩ | ⟨hc, h⟩ | ⟨hc, h⟩ | ⟨hc, h⟩ | ⟨hc, h⟩ | ⟨hc, h⟩ | ⟨hc, h⟩ | ⟨hc, h⟩ | ⟨hc, h⟩ | ⟨hc, h⟩ | ⟨hc, h⟩ | ⟨hc, h⟩ | ⟨hc, h⟩ | ⟨hc, h⟩ | ⟨hc, h⟩ | ⟨hc, h⟩ | ⟨hc, h⟩ | ⟨hc, h⟩ <;> (rw [h]; first | rfl | exact h)

/-- Lower-casing preserves whitespace-ness. -/
theorem isWsC_lowerChar (c : Char) : isWsC (lowerChar c) = isWsC c := by
  rcases lowerChar_cases c with h | ⟨hc, h⟩ | ⟨hc, h⟩ | ⟨hc, h⟩ | ⟨hc, h⟩ | ⟨hc, h⟩ | ⟨hc, h⟩ | ⟨hc, h⟩ | ⟨hc, h⟩ | ⟨hc, h⟩ | ⟨hc, h⟩ | ⟨hc, h⟩ | ⟨hc, h⟩ | ⟨hc, h⟩ | ⟨hc, h⟩ | ⟨hc, h⟩ | ⟨hc, h⟩ | ⟨hc, h⟩ | ⟨hc, h⟩ | ⟨hc, h⟩ | ⟨hc, h⟩ | ⟨hc, h⟩ | ⟨hc, h⟩ | ⟨hc, h⟩ | ⟨hc, h⟩ | ⟨hc, h⟩ | ⟨hc, h⟩ <;> rw [h] <;> first | rfl | (rw [hc]; rfl)

/-- `dropWhile` is idempotent. -/
theorem dropWhile_dropWhile (p : Char → Bool) (l : List Char) :
    (l.dropWhile p).dropWhile p = l.dropWhile p := by
  induction l with
  | nil => rfl
  | cons c t ih =>
      by_cases h : p c
      · simp [List.dropWhile_cons, h, ih]
      · simp [List.dropWhile_cons, h]

/-- A left-stripped non-empty list starts with a non-whitespace character. -/
theorem stripLeft_cons_self {c : Char} {t : List Char}
    (h : stripLeft (c :: t) = c :: t) : isWsC c = false := by
  by_contra hc
  have hct : isWsC c = true := by simpa using hc
  unfold stripLeft at h
  rw [List.dropWhile_cons, if_pos hct] at h
  have hlen := congrArg List.length h
  have hle : (t.dropWhile isWsC).length ≤ t.length := (List.dropWhile_sublist _).length_le
  simp at hlen
  omega

/-- Right-stripping is idempotent. -/
theorem stripRight_stripRight (l : List Char) :
    stripRight (stripRight l) = stripRight l := by
  unfold stripRight
  rw [List.reverse_reverse, dropWhile_dropWhile]

/-- Right-stripping a left-stripped list leaves it left-stripped. -/
theorem stripLeft_stripRight {m : List Char} (h : stripLeft m = m) :
    stripLeft (stripRight m) = stripRight m := by
  cases m with
  | nil => rfl
  | cons c t =>
      have hc : isWsC c = false := stripLeft_cons_self h
      unfold stripRight
      rw [List.reverse_cons, List.dropWhile_append]
      split
      · next hemp =>
          simp only [List.dropWhile_cons, List.dropWhile_nil, hc, Bool.false_eq_true,
            if_false]
          simp [stripLeft, List.dropWhile_cons, hc]
      · next hemp =>
          rw [List.reverse_append]
          simp only [List.reverse_cons, List.reverse_nil, List.nil_append,
            List.singleton_append]
          unfold stripLeft
          rw [List.dropWhile_cons, if_neg (by simp [hc])]

/-- Left-stripping is idempotent. -/
theorem stripLeft_stripLeft (l : List Char) : stripLeft (stripLeft l) = stripLeft l :=
  dropWhile_dropWhile _ _

/-- Full stripping is idempotent. -/
theorem stripL_stripL (l : List Char) : stripL (stripL l) = stripL l := by
  unfold stripL
  rw [stripLeft_stripRight (stripLeft_stripLeft l), stripRight_stripRight]

/-- Left strip commutes with lower-casing. -/
theorem stripLeft_lowerL (l : List Char) :
    stripLeft (lowerL l) = lowerL (stripLeft l) := by
  unfold stripLeft lowerL
  rw [List.dropWhile_map]
  have hp : (isWsC ∘ lowerChar) = isWsC := funext isWsC_lowerChar
  rw [hp]

/-- Right strip commutes with lower-casing. -/
theorem stripRight_lowerL (l : List Char) :
    stripRight (lowerL l) = lowerL (stripRight l) := by
  unfold stripRight lowerL
  rw [← List.map_reverse, List.dropWhile_map]
  have hp : (isWsC ∘ lowerChar) = isWsC := funext isWsC_lowerChar
  rw [hp, List.map_reverse]

/-- Stripping commutes with lower-casing. -/
theorem stripL_lowerL (l : List Char) : stripL (lowerL l) = lowerL (stripL l) := by
  unfold stripL
  rw [stripLeft_lowerL, stripRight_lowerL]

/-- Lower-casing is idempotent on lists. -/
theorem lowerL_lowerL (l : List Char) : lowerL (lowerL l) = lowerL l := by
  unfold lowerL
  rw [List.map_map]
  have hp : (lowerChar ∘ lowerChar) = lowerChar := funext lowerChar_lowerChar
  rw [hp]

/-- `splitext` keeps a dot-free name whole. -/
theorem splitextRoot_no_dot {l : List Char} (h : '.' ∉ l) : splitextRoot l = l := by
  unfold splitextRoot
  have hnil : l.reverse.dropWhile (fun c => decide (c ≠ '.')) = [] := by
    rw [List.dropWhile_eq_nil_iff]
    intro x hx
    have hxl : x ∈ l := List.mem_reverse.mp hx
    simp only [ne_eq, decide_eq_true_eq]
    intro hxe
    exact h (hxe ▸ hxl)
  rw [hnil]

/-- The output of the normalizer pipeline is already stripped and lower-cased. -/
theorem normalizeL_fix (l : List Char) :
    lowerL (stripL (normalizeL l)) = normalizeL l := by
  unfold normalizeL
  generalize sub5 (sub4 (sub3 (sub2 (sub1 (splitextRoot l))))) = w
  rw [stripL_lowerL, stripL_stripL, lowerL_lowerL]

/-- Projection of a built string. -/
theorem data_mk (l : List Char) : (String.mk l).data = l := rfl

/-- The character data of a normalized name. -/
theorem normalize_data_eq (x : String) :
    (normalize_filename x).data = normalizeL x.data := by
  unfold normalize_filename
  exact data_mk (normalizeL x.data)

/-- The output of the normalizer is already stripped and lower-cased. -/
theorem normalize_data_fix (x : String) :
    lowerL (stripL (normalize_filename x).data) = (normalize_filename x).data := by
  rw [normalize_data_eq]
  exact normalizeL_fix x.data

/-- A name that is dot-free and fixed by every removal pattern is fixed by the
whole normalizer, provided it is already stripped and lower-cased. -/
theorem normalize_fixed_of (y : String) (hdot : '.' ∉ y.data)
    (h1 : sub1 y.data = y.data) (h2 : sub2 y.data = y.data)
    (h3 : sub3 y.data = y.data) (h4 : sub4 y.data = y.data)
    (h5 : sub5 y.data = y.data)
    (hfix : lowerL (stripL y.data) = y.data) :
    normalize_filename y = y := by
  unfold normalize_filename normalizeL
  rw [splitextRoot_no_dot hdot, h1, h2, h3, h4, h5, hfix]

/-- C4 (amended): normalization is NOT idempotent in general (a second
application can strip another extension, as the counterexample shows); it IS
idempotent on every input whose normalized form contains no dot and is left
unchanged by each of the five suffix-removal patterns. -/
theorem C4_amended (x : String)
    (hdot : '.' ∉ (normalize_filename x).data)
    (h1 : sub1 (normalize_filename x).data = (normalize_filename x).data)
    (h2 : sub2 (normalize_filename x).data = (normalize_filename x).data)
    (h3 : sub3 (normalize_filename x).data = (normalize_filename x).data)
    (h4 : sub4 (normalize_filename x).data = (normalize_filename x).data)
    (h5 : sub5 (normalize_filename x).data = (normalize_filename x).data) :
    normalize_filename (normalize_filename x) = normalize_filename x :=
  normalize_fixed_of (normalize_filename x) hdot h1 h2 h3 h4 h5 (normalize_data_fix x)

/-- Witness for C4 (amended) at `notes.txt` (normalizes to `notes`, which is
dot-free and pattern-free). -/
theorem C4_amended_witness :
    normalize_filename (normalize_filename "notes.txt") = normalize_filename "notes.txt" :=
  C4_amended "notes.txt" (by decide) (by decide) (by decide) (by decide) (by decide)
    (by decide)

/-- A sorted rational list splits into its elements strictly below a threshold
followed by those at or above it. -/
theorem sorted_split_lt_ge (th : Rat) :
    ∀ ts : List Rat, ts.Pairwise (· ≤ ·) →
      ts = ts.filter (fun c => decide (c < th)) ++ ts.filter (fun c => decide (th ≤ c)) := by
  intro ts
  induction ts with
  | nil => intro _; rfl
  | cons c t ih =>
      intro hp
      rw [List.pairwise_cons] at hp
      by_cases hc : c < th
      · have h1 : (decide (c < th) = true) := by simpa using hc
        have h2 : ¬(decide (th ≤ c) = true) := by simpa using not_le.mpr hc
        simp only [List.filter_cons, if_pos h1, if_neg h2, List.cons_append]
        exact congrArg (c :: ·) (ih hp.2)
      · have hthc : th ≤ c := not_lt.mp hc
        have hall : ∀ x ∈ t, th ≤ x := fun x hx => le_trans hthc (hp.1 x hx)
        have h1 : t.filter (fun c => decide (c < th)) = [] := by
          rw [List.filter_eq_nil_iff]
          intro x hx
          simpa using not_lt.mpr (hall x hx)
        have h2 : t.filter (fun c => decide (th ≤ c)) = t := by
          rw [List.filter_eq_self]
          intro x hx
          simpa using hall x hx
        have hc1 : ¬(decide (c < th) = true) := by simpa using hc
        have hc2 : (decide (th ≤ c) = true) := by simpa using hthc
        simp only [List.filter_cons, if_neg hc1, if_pos hc2, h1, h2, List.nil_append]

/-- In a sorted nonempty rational list every element is at least the head. -/
theorem sorted_headD_le {l : List Rat} (hp : l.Pairwise (· ≤ ·)) (hne : l ≠ []) :
    ∀ c ∈ l, l.headD 0 ≤ c := by
  cases l with
  | nil => exact absurd rfl hne
  | cons a t =>
      intro c hc
      rw [List.pairwise_cons] at hp
      simp only [List.headD_cons]
      rcases List.mem_cons.mp hc with h | h
      · exact le_of_eq h.symm
      · exact hp.1 c h

/-- The window count of a concatenation is the sum of the window counts. -/
theorem windowCount_append (a b : List Rat) (u : Rat) :
    windowCount (a ++ b) u = windowCount a u + windowCount b u := by
  unfold windowCount
  exact List.countP_append _ a b

/-- One limiter step preserves the deque invariant: the new call time is at
least the entry time, the history decomposes into expired timestamps followed
by the new deque, the deque stays sorted and bounded by the new clock, and
every rolling 60-second window of the extended history still holds at most
rpm calls. -/
theorem limiterStep_invariant (rpm : Nat) (hrpm : 1 ≤ rpm)
    (H ts d : List Rat) (clock now : Rat)
    (hH : H = d ++ ts) (hd : ∀ c ∈ d, c < clock - 60)
    (hsort : ts.Pairwise (· ≤ ·))
    (hle : ∀ c ∈ H, c ≤ clock)
    (hw : ∀ u, windowCount H u ≤ rpm)
    (hclock : clock ≤ now) :
    now ≤ (limiterStep rpm ts now).1 ∧
    (∃ d2, H ++ [(limiterStep rpm ts now).1] = d2 ++ (limiterStep rpm ts now).2 ∧
        ∀ c ∈ d2, c < (limiterStep rpm ts now).1 - 60) ∧
    (limiterStep rpm ts now).2.Pairwise (· ≤ ·) ∧
    (∀ c ∈ H ++ [(limiterStep rpm ts now).1], c ≤ (limiterStep rpm ts now).1) ∧
    (∀ u, windowCount (H ++ [(limiterStep rpm ts now).1]) u ≤ rpm) := by
  obtain ⟨kept, hkept⟩ : ∃ k, k = ts.filter (fun t => now - t ≤ 60) := ⟨_, rfl⟩
  obtain ⟨call, hcall⟩ :
      ∃ c, c = if rpm ≤ kept.length then kept.headD 0 + 60 + 1 / 20 else now := ⟨_, rfl⟩
  have hstep1 : (limiterStep rpm ts now).1 = call := by rw [hcall, hkept]; rfl
  have hstep2 : (limiterStep rpm ts now).2 = kept ++ [call] := by rw [hcall, hkept]; rfl
  rw [hstep1, hstep2]
  have htsH : ∀ c ∈ ts, c ∈ H := fun c hc => hH ▸ List.mem_append_right d hc
  have hkts : ∀ c ∈ kept, c ∈ ts := by
    intro c hc
    rw [hkept] at hc
    exact List.mem_of_mem_filter hc
  have hkup : ∀ c ∈ kept, now - 60 ≤ c := by
    intro c hc
    rw [hkept] at hc
    have h2 : now - c ≤ 60 := by simpa using List.of_mem_filter hc
    linarith
  have hkclock : ∀ c ∈ kept, c ≤ clock := fun c hc => hle c (htsH c (hkts c hc))
  have hksort : kept.Pairwise (· ≤ ·) := by
    rw [hkept]
    exact hsort.filter _
  have hklen : kept.length ≤ rpm := by
    have h1 : kept.length = ts.countP (fun t => decide (now - t ≤ 60)) := by
      rw [hkept]
      exact (List.countP_eq_length_filter _ _).symm
    have h2 : ts.countP (fun t => decide (now - t ≤ 60))
        ≤ ts.countP (fun c => decide (now - 60 ≤ c ∧ c ≤ now - 60 + 60)) := by
      apply List.countP_mono_left
      intro a ha hpa
      have h3 : now - a ≤ 60 := by simpa using hpa
      have h4 : a ≤ clock := hle a (htsH a ha)
      simp only [decide_eq_true_eq]
      constructor <;> linarith
    have h3 : ts.countP (fun c => decide (now - 60 ≤ c ∧ c ≤ now - 60 + 60))
        ≤ H.countP (fun c => decide (now - 60 ≤ c ∧ c ≤ now - 60 + 60)) := by
      rw [hH]
      exact (List.sublist_append_right d ts).countP_le _
    have h4 := hw (now - 60)
    unfold windowCount at h4
    omega
  have hncall : now ≤ call := by
    rw [hcall]
    by_cases hfull : rpm ≤ kept.length
    · rw [if_pos hfull]
      have hne : kept ≠ [] := by
        intro h0
        rw [h0] at hfull
        simp at hfull
        omega
      have hmem : kept.headD 0 ∈ kept := by
        cases hk : kept with
        | nil => exact absurd hk hne
        | cons a t => simp
      have := hkup _ hmem
      linarith
    · rw [if_neg hfull]
  refine ⟨hncall, ?_, ?_, ?_, ?_⟩
  · refine ⟨d ++ ts.filter (fun c => decide (c < now - 60)), ?_, ?_⟩
    · have hkept2 : kept = ts.filter (fun c => decide (now - 60 ≤ c)) := by
        rw [hkept]
        apply List.filter_congr
        intro a _
        rw [decide_eq_decide]
        constructor <;> intro <;> linarith
      rw [hH]
      conv_lhs => rw [sorted_split_lt_ge (now - 60) ts hsort]
      rw [hkept2]
      simp [List.append_assoc]
    · intro c hc
      rcases List.mem_append.mp hc with h | h
      · have := hd c h
        linarith
      · have h2 : c < now - 60 := by simpa using List.of_mem_filter h
        linarith
  · rw [List.pairwise_append]
    refine ⟨hksort, by simp, ?_⟩
    intro a ha b hb
    rw [List.mem_singleton] at hb
    subst hb
    have h1 := hkclock a ha
    linarith
  · intro c hc
    rcases List.mem_append.mp hc with h | h
    · have := hle c h
      linarith
    · rw [List.mem_singleton] at h
      exact le_of_eq h
  · intro u
    rw [windowCount_append]
    by_cases hin : u ≤ call ∧ call ≤ u + 60
    · have hone : windowCount [call] u = 1 := by
        simp [windowCount, List.countP_cons, hin.1, hin.2]
      rw [hone]
      have hu60 : call - 60 ≤ u := by linarith [hin.2]
      have hHw : windowCount H u
          = d.countP (fun c => decide (u ≤ c ∧ c ≤ u + 60))
            + ts.countP (fun c => decide (u ≤ c ∧ c ≤ u + 60)) := by
        rw [hH]
        unfold windowCount
        exact List.countP_append _ d ts
      have hd0 : d.countP (fun c => decide (u ≤ c ∧ c ≤ u + 60)) = 0 := by
        rw [List.countP_eq_zero]
        intro a ha hpa
        have h1 : u ≤ a ∧ a ≤ u + 60 := by simpa using hpa
        have h2 := hd a ha
        linarith [h1.1]
      by_cases hfull : rpm ≤ kept.length
      · have hlen : kept.length = rpm := le_antisymm hklen hfull
        have hne : kept ≠ [] := by
          intro h0
          rw [h0] at hlen
          simp at hlen
          omega
        have hhd : kept.headD 0 ∈ kept := by
          cases hk : kept with
          | nil => exact absurd hk hne
          | cons a t => simp
        have hhmin : ∀ c ∈ kept, kept.headD 0 ≤ c := sorted_headD_le hksort hne
        have hcv : call = kept.headD 0 + 60 + 1 / 20 := by rw [hcall, if_pos hfull]
        rw [hcv] at hu60
        have h3 := hkup _ hhd
        have hts : ts.countP (fun c => decide (u ≤ c ∧ c ≤ u + 60))
            ≤ ts.countP (fun c => decide (kept.headD 0 < c) && decide (now - c ≤ 60)) := by
          apply List.countP_mono_left
          intro a ha hpa
          have h1 : u ≤ a ∧ a ≤ u + 60 := by simpa using hpa
          simp only [Bool.and_eq_true, decide_eq_true_eq]
          constructor
          · linarith [h1.1]
          · linarith [h1.1]
        have hck : ts.countP (fun c => decide (kept.headD 0 < c) && decide (now - c ≤ 60))
            = kept.countP (fun c => decide (kept.headD 0 < c)) := by
          rw [hkept]
          exact (List.countP_filter _ _ ts).symm
        have hklt : kept.countP (fun c => decide (kept.headD 0 < c)) < kept.length := by
          have h5 := List.length_eq_countP_add_countP (fun c => decide (kept.headD 0 < c)) kept
          have h6 : 0 < kept.countP (fun a => ¬ decide (kept.headD 0 < a)) := by
            rw [List.countP_pos_iff]
            exact ⟨kept.headD 0, hhd, by simp⟩
          omega
        omega
      · have hcv : call = now := by rw [hcall, if_neg hfull]
        rw [hcv] at hu60
        have hts : ts.countP (fun c => decide (u ≤ c ∧ c ≤ u + 60))
            ≤ ts.countP (fun t => decide (now - t ≤ 60)) := by
          apply List.countP_mono_left
          intro a ha hpa
          have h1 : u ≤ a ∧ a ≤ u + 60 := by simpa using hpa
          simp only [decide_eq_true_eq]
          linarith [h1.1]
        have hklen2 : ts.countP (fun t => decide (now - t ≤ 60)) = kept.length := by
          rw [hkept]
          exact List.countP_eq_length_filter _ _
        have hlt : kept.length < rpm := by omega
        omega
    · have hzero : windowCount [call] u = 0 := by
        simp only [windowCount, List.countP_cons, List.countP_nil]
        simp [hin]
      rw [hzero]
      simpa using hw u

/-- Running the limiter of ONE analyzer instance from any state satisfying the
deque invariant keeps every rolling 60-second window of the call history at or
below rpm. -/
theorem limiterRun_window (rpm : Nat) (hrpm : 1 ≤ rpm) :
    ∀ (reqs H ts d : List Rat) (clock : Rat),
    H = d ++ ts → (∀ c ∈ d, c < clock - 60) →
    ts.Pairwise (· ≤ ·) →
    (∀ c ∈ H, c ≤ clock) →
    (∀ u, windowCount H u ≤ rpm) →
    ∀ u, windowCount (H ++ limiterRun rpm ts clock reqs) u ≤ rpm := by
  intro reqs
  induction reqs with
  | nil =>
      intro H ts d clock _ _ _ _ hw u
      simpa only [limiterRun, List.append_nil] using hw u
  | cons r rs ih =>
      intro H ts d clock hH hd hsort hle hw
      obtain ⟨hnc, ⟨d2, hH2, hd2⟩, hsort2, hle2, hw2⟩ :=
        limiterStep_invariant rpm hrpm H ts d clock (max clock r) hH hd hsort hle hw
          (le_max_left clock r)
      intro u
      have hrun : limiterRun rpm ts clock (r :: rs)
          = (limiterStep rpm ts (max clock r)).1
            :: limiterRun rpm (limiterStep rpm ts (max clock r)).2
                (limiterStep rpm ts (max clock r)).1 rs := rfl
      rw [hrun, List.append_cons]
      exact ih (H ++ [(limiterStep rpm ts (max clock r)).1])
        (limiterStep rpm ts (max clock r)).2 d2
        (limiterStep rpm ts (max clock r)).1 hH2 hd2 hsort2 hle2 hw2 u

/-- C2 (counterexample): the rate-limiter state is NOT process-wide. Each
analyzer owns a fresh AIAnalyzer and hence a fresh timestamp deque, so with
rpm = 1 two analyzers both calling at time 0 give the process two calls inside
the window starting at 0, violating the claimed process-wide bound of 1. -/
theorem C2_counterexample : ¬ (windowCount (processCalls 1 [[0], [0]]) 0 ≤ 1) := by
  have h1 : windowCount (processCalls 1 [[0], [0]]) 0 = 2 := by
    norm_num [processCalls, limiterRun, limiterStep, windowCount, List.countP_cons]
  omega

/-- C2 (amended): the deque trimmed at the head and the sleep of
60 - (now - oldest) + 0.05 seconds before recording do enforce the rolling
bound, but only per AIAnalyzer instance: a single instance whose calls run
sequentially never exceeds rpm calls in any rolling 60-second window. -/
theorem C2_amended (rpm : Nat) (reqs : List Rat) (u : Rat) (hrpm : 1 ≤ rpm) :
    windowCount (limiterRun rpm [] 0 reqs) u ≤ rpm := by
  have h := limiterRun_window rpm hrpm reqs [] [] [] 0 rfl
    (by intro c hc; exact absurd hc (List.not_mem_nil c))
    List.Pairwise.nil
    (by intro c hc; exact absurd hc (List.not_mem_nil c))
    (by intro u2; simp [windowCount])
    u
  simpa using h

/-- Closed witness for the amended C2: one instance at rpm 1 asked for two
calls at time 0 stays within the bound. -/
theorem C2_amended_witness : windowCount (limiterRun 1 [] 0 [0, 0]) 0 ≤ 1 :=
  C2_amended 1 [0, 0] 0 (by decide)

/-- Reduction of a successful Except bind. -/
theorem exc_ok_bind {α β : Type} (a : α) (f : α → Except Unit β) :
    (Except.ok a >>= f) = f a := rfl

/-- Reduction of a failed Except bind. -/
theorem exc_error_bind {α β : Type} (f : α → Except Unit β) :
    ((Except.error () : Except Unit α) >>= f) = Except.error () := rfl

/-- The batch index fold on an integer index accepts it when in range and
skips it otherwise, never raising. -/
theorem batchIdxFold_int (versions : List FileVersion) (acc : List FileVersion × List Int)
    (k : Int) :
    batchIdxFold versions acc (JVal.jint k)
      = Except.ok (if 1 ≤ k ∧ k ≤ (versions.length : Int)
          then (acc.1 ++ [resolveIdx versions k], acc.2 ++ [k]) else acc) := by
  have h : batchIdxFold versions acc (JVal.jint k)
      = if 1 ≤ k ∧ k ≤ (versions.length : Int)
          then Except.ok (acc.1 ++ [resolveIdx versions k], acc.2 ++ [k])
          else Except.ok acc := rfl
  rw [h, ← apply_ite Except.ok]

/-- The batch index fold over a list of encoded integer indices collects
exactly the in-range ones, in order. -/
theorem batch_fold_enc (versions : List FileVersion) :
    ∀ (ks : List Int) (acc : List FileVersion × List Int),
    (ks.map JVal.jint).foldlM (batchIdxFold versions) acc
      = Except.ok
          (acc.1 ++ ((ks.filter (fun k => decide (1 ≤ k ∧ k ≤ (versions.length : Int)))).map
              (resolveIdx versions)),
           acc.2 ++ ks.filter (fun k => decide (1 ≤ k ∧ k ≤ (versions.length : Int)))) := by
  intro ks
  induction ks with
  | nil =>
      intro acc
      simp only [List.map_nil, List.foldlM_nil, List.filter_nil, List.append_nil]
      rfl
  | cons k ks ih =>
      intro acc
      rw [List.map_cons, List.foldlM_cons, batchIdxFold_int]
      by_cases hk : 1 ≤ k ∧ k ≤ (versions.length : Int)
      · rw [if_pos hk]
        simp only [exc_ok_bind]
        rw [ih]
        have hfk : (k :: ks).filter (fun k => decide (1 ≤ k ∧ k ≤ (versions.length : Int)))
            = k :: ks.filter (fun k => decide (1 ≤ k ∧ k ≤ (versions.length : Int))) := by
          rw [List.filter_cons, if_pos (by simpa using hk)]
        rw [hfk]
        simp [List.append_assoc]
      · rw [if_neg hk]
        simp only [exc_ok_bind]
        rw [ih]
        have hfk : (k :: ks).filter (fun k => decide (1 ≤ k ∧ k ≤ (versions.length : Int)))
            = ks.filter (fun k => decide (1 ≤ k ∧ k ≤ (versions.length : Int))) := by
          rw [List.filter_cons, if_neg (by simpa using hk)]
        rw [hfk]

/-- The batch group loop over encoded groups never raises: it keeps exactly
the groups with at least one in-range index and records every in-range
reference, in order. -/
theorem batchGroupLoop_enc (versions : List FileVersion) :
    ∀ (gs : List GroupS) (gs0 : List VersionGroup) (used0 : List Int),
    batchGroupLoop versions (gs.map encGroup) gs0 used0
      = Except.ok
          (gs0 ++ gs.filterMap (encKeep versions),
           used0 ++ groupRefs gs versions.length) := by
  intro gs
  induction gs with
  | nil =>
      intro gs0 used0
      simp [batchGroupLoop, groupRefs]
  | cons g gs ih =>
      intro gs0 used0
      have hstep : batchGroupLoop versions ((g :: gs).map encGroup) gs0 used0
          = ((g.indices.map JVal.jint).foldlM (batchIdxFold versions) ([], []) >>= fun ru =>
              if ru.1 = [] then
                batchGroupLoop versions (gs.map encGroup) gs0 (used0 ++ ru.2)
              else
                batchGroupLoop versions (gs.map encGroup)
                  (gs0 ++ [{ base_name := JVal.jstr g.name, versions := ru.1,
                             reasoning := JVal.jstr "" }])
                  (used0 ++ ru.2)) := rfl
      rw [hstep, batch_fold_enc]
      simp only [exc_ok_bind, List.nil_append]
      have hgr : groupRefs (g :: gs) versions.length
          = g.indices.filter (fun k => decide (1 ≤ k ∧ k ≤ (versions.length : Int)))
            ++ groupRefs gs versions.length := rfl
      by_cases hnil : ((g.indices.filter
          (fun k => decide (1 ≤ k ∧ k ≤ (versions.length : Int)))).map (resolveIdx versions)) = []
      · rw [if_pos hnil, ih]
        have hfe : g.indices.filter (fun k => decide (1 ≤ k ∧ k ≤ (versions.length : Int))) = [] := by
          rwa [List.map_eq_nil_iff] at hnil
        have hFg : encKeep versions g = none := if_pos hnil
        rw [List.filterMap_cons_none hFg, hgr, hfe]
        simp
      · rw [if_neg hnil, ih]
        have hFg : encKeep versions g
            = some { base_name := JVal.jstr g.name,
                     versions := (g.indices.filter
                         (fun k => decide (1 ≤ k ∧ k ≤ (versions.length : Int)))).map
                       (resolveIdx versions),
                     reasoning := JVal.jstr "" } :=
          if_neg hnil
        rw [List.filterMap_cons_some hFg, hgr]
        simp [List.append_assoc]

/-- The body of `BatchGroupingAnalyzer.parse_response` on an encoded groups
response: the kept oracle groups, then one completeness singleton for each
index never referenced in range. -/
theorem batchParse_enc (versions : List FileVersion) (gs : List GroupS) :
    batchParse (mkGroupsResp (gs.map encGroup)) versions
      = Except.ok
          (gs.filterMap (encKeep versions)
            ++ (List.range versions.length).filterMap
              (singleKeepV versions (groupRefs gs versions.length))) := by
  simp only [batchParse]
  rw [show pyGetE (mkGroupsResp (gs.map encGroup)) "groups" (JVal.jarr [])
      = Except.ok (JVal.jarr (gs.map encGroup)) from rfl]
  simp only [exc_ok_bind]
  rw [show pyIterE (JVal.jarr (gs.map encGroup)) = Except.ok (gs.map encGroup) from rfl]
  simp only [exc_ok_bind]
  rw [batchGroupLoop_enc]
  simp only [exc_ok_bind, List.nil_append]
  rfl

/-- An in-range 1-based index resolves to the list element before it. -/
theorem resolveIdx_get (versions : List FileVersion) (k : Int)
    (h1 : 1 ≤ k) (h2 : k ≤ (versions.length : Int)) :
    ∃ hlt : (k - 1).toNat < versions.length,
      resolveIdx versions k = versions.get ⟨(k - 1).toNat, hlt⟩ := by
  have hlt : (k - 1).toNat < versions.length := by omega
  refine ⟨hlt, ?_⟩
  unfold resolveIdx
  rw [List.get?_eq_get hlt]
  rfl

/-- An in-range 1-based index resolves to a member of the list. -/
theorem resolveIdx_mem (versions : List FileVersion) (k : Int)
    (h1 : 1 ≤ k) (h2 : k ≤ (versions.length : Int)) :
    resolveIdx versions k ∈ versions := by
  obtain ⟨hlt, he⟩ := resolveIdx_get versions k h1 h2
  rw [he]
  exact List.get_mem versions ((k - 1).toNat) hlt

/-- Flattening the kept encoded groups yields exactly the resolutions of the
in-range references, in order (a dropped group has no members to lose). -/
theorem flatten_enc_groups (versions : List FileVersion) (gs : List GroupS) :
    (((gs.filterMap (encKeep versions)).map (·.versions)).flatten)
      = (groupRefs gs versions.length).map (resolveIdx versions) := by
  induction gs with
  | nil => simp [groupRefs]
  | cons g gs ih =>
      have hcons : groupRefs (g :: gs) versions.length
          = g.indices.filter (fun k => decide (1 ≤ k ∧ k ≤ (versions.length : Int)))
            ++ groupRefs gs versions.length := rfl
      rw [hcons, List.map_append]
      by_cases hnil : ((g.indices.filter
          (fun k => decide (1 ≤ k ∧ k ≤ (versions.length : Int)))).map (resolveIdx versions)) = []
      · have hfe : g.indices.filter (fun k => decide (1 ≤ k ∧ k ≤ (versions.length : Int))) = [] := by
          rwa [List.map_eq_nil_iff] at hnil
        have hFg : encKeep versions g = none := if_pos hnil
        rw [List.filterMap_cons_none hFg, ih, hfe]
        simp
      · have hFg : encKeep versions g
            = some { base_name := JVal.jstr g.name,
                     versions := (g.indices.filter
                         (fun k => decide (1 ≤ k ∧ k ≤ (versions.length : Int)))).map
                       (resolveIdx versions),
                     reasoning := JVal.jstr "" } := if_neg hnil
        rw [List.filterMap_cons_some hFg, List.map_cons, List.flatten_cons, ih]

/-- Flattening the completeness singletons yields one resolution per index
never referenced in range. -/
theorem flatten_singles (versions : List FileVersion) (refs : List Int) :
    ∀ l : List Nat,
      ((l.filterMap (singleKeepV versions refs)).map (·.versions)).flatten
      = l.filterMap (singleKeepF versions refs) := by
  intro l
  induction l with
  | nil => rfl
  | cons a l ih =>
      by_cases hm : ((a : Int) + 1) ∈ refs
      · have h1 : singleKeepV versions refs a = none := if_pos hm
        have h2 : singleKeepF versions refs a = none := if_pos hm
        rw [List.filterMap_cons_none h1, List.filterMap_cons_none h2, ih]
      · have h1 : singleKeepV versions refs a
            = some (mkSingleGroup (resolveIdx versions ((a : Int) + 1))) := if_neg hm
        have h2 : singleKeepF versions refs a
            = some (resolveIdx versions ((a : Int) + 1)) := if_neg hm
        rw [List.filterMap_cons_some h1, List.filterMap_cons_some h2, List.map_cons,
          List.flatten_cons, ih]
        rfl

/-- The completeness singletons keep exactly the unreferenced indices. -/
theorem singleKeepF_filter (versions : List FileVersion) (refs : List Int) :
    ∀ l : List Nat,
      l.filterMap (singleKeepF versions refs)
        = (l.filter (fun j : Nat => decide (¬ ((j : Int) + 1) ∈ refs))).map
            (fun j : Nat => resolveIdx versions ((j : Int) + 1)) := by
  intro l
  induction l with
  | nil => rfl
  | cons a l ih =>
      by_cases hm : ((a : Int) + 1) ∈ refs
      · have h1 : singleKeepF versions refs a = none := if_pos hm
        rw [List.filterMap_cons_none h1, List.filter_cons, if_neg (by simp [hm])]
        exact ih
      · have h1 : singleKeepF versions refs a
            = some (resolveIdx versions ((a : Int) + 1)) := if_neg hm
        rw [List.filterMap_cons_some h1, List.filter_cons, if_pos (by simp [hm]),
          List.map_cons, ih]

/-- Counting a fixed member among the resolutions of in-range references
counts the references to its own 1-based index (versions pairwise distinct). -/
theorem count_resolved_refs (versions : List FileVersion) (hnd : versions.Nodup)
    (refs : List Int) (href : ∀ k ∈ refs, 1 ≤ k ∧ k ≤ (versions.length : Int))
    (i : Nat) (h : i < versions.length) :
    (refs.map (resolveIdx versions)).count (versions.get ⟨i, h⟩)
      = refs.count ((i : Int) + 1) := by
  rw [List.count_eq_countP, List.count_eq_countP, List.countP_map]
  apply List.countP_congr
  intro k hk
  obtain ⟨hk1, hk2⟩ := href k hk
  obtain ⟨hlt, he⟩ := resolveIdx_get versions k hk1 hk2
  simp only [Function.comp, beq_iff_eq]
  rw [he]
  constructor
  · intro hgv
    have hfin := (List.Nodup.get_inj_iff hnd).mp hgv
    have hv : (k - 1).toNat = i := congrArg Fin.val hfin
    omega
  · intro hk3
    subst hk3
    exact congrArg versions.get (Fin.ext (show (((i : Int) + 1) - 1).toNat = i by omega))

/-- Counting a fixed member among the completeness singletons: one when its
index is never referenced, zero otherwise. -/
theorem count_singles (versions : List FileVersion) (hnd : versions.Nodup)
    (refs : List Int) (i : Nat) (h : i < versions.length) :
    (((List.range versions.length).filter
        (fun j : Nat => decide (¬ ((j : Int) + 1) ∈ refs))).map
      (fun j : Nat => resolveIdx versions ((j : Int) + 1))).count (versions.get ⟨i, h⟩)
      = if ((i : Int) + 1) ∈ refs then 0 else 1 := by
  rw [List.count_eq_countP, List.countP_map]
  have hcong : ((List.range versions.length).filter
        (fun j : Nat => decide (¬ ((j : Int) + 1) ∈ refs))).countP
        ((· == versions.get ⟨i, h⟩) ∘ (fun j : Nat => resolveIdx versions ((j : Int) + 1)))
      = ((List.range versions.length).filter
        (fun j : Nat => decide (¬ ((j : Int) + 1) ∈ refs))).countP (· == i) := by
    apply List.countP_congr
    intro j hj
    have hjr : j < versions.length := List.mem_range.mp (List.mem_of_mem_filter hj)
    have hjk1 : (1 : Int) ≤ (j : Int) + 1 := by omega
    have hjk2 : (j : Int) + 1 ≤ (versions.length : Int) := by omega
    obtain ⟨hlt, he⟩ := resolveIdx_get versions ((j : Int) + 1) hjk1 hjk2
    simp only [Function.comp, beq_iff_eq]
    rw [he]
    constructor
    · intro hgv
      have hfin := (List.Nodup.get_inj_iff hnd).mp hgv
      have hv : (((j : Int) + 1) - 1).toNat = i := congrArg Fin.val hfin
      omega
    · intro hj2
      have hj3 : j = i := hj2
      subst hj3
      exact congrArg versions.get (Fin.ext (show (((j : Int) + 1) - 1).toNat = j by omega))
  rw [hcong, ← List.count_eq_countP]
  by_cases hmem : ((i : Int) + 1) ∈ refs
  · rw [if_pos hmem]
    apply List.count_eq_zero.mpr
    intro hin
    have := List.of_mem_filter hin
    simp at this
    exact this hmem
  · rw [if_neg hmem]
    apply List.count_eq_one_of_mem
    · exact (List.nodup_range _).filter _
    · refine List.mem_filter.mpr ⟨List.mem_range.mpr h, ?_⟩
      simpa using hmem

/-- Every in-range reference of an encoded groups list is in range. -/
theorem groupRefs_in_range (gs : List GroupS) (n : Nat) :
    ∀ k ∈ groupRefs gs n, 1 ≤ k ∧ k ≤ (n : Int) := by
  intro k hk
  unfold groupRefs at hk
  obtain ⟨g, _, hkf⟩ := List.mem_flatMap.mp hk
  simpa using List.of_mem_filter hkf

/-- The iterative index fold only accumulates resolved candidate-pool
members. -/
theorem iter_fold_mem (c : List FileVersion) :
    ∀ (xs : List JVal) (acc out : List FileVersion),
    xs.foldlM (iterIdxFold c) acc = Except.ok out →
    ∀ v ∈ out, v ∈ acc ∨ v ∈ c := by
  intro xs
  induction xs with
  | nil =>
      intro acc out hout
      rw [List.foldlM_nil] at hout
      have hae : Except.ok acc = Except.ok out := hout
      injection hae with hae2
      subst hae2
      exact fun v hv => Or.inl hv
  | cons x xs ih =>
      intro acc out hout
      rw [List.foldlM_cons] at hout
      cases hx : iterIdxFold c acc x with
      | error e =>
          rw [hx] at hout
          cases e
          rw [exc_error_bind] at hout
          exact Except.noConfusion hout
      | ok acc2 =>
          rw [hx] at hout
          simp only [exc_ok_bind] at hout
          intro v hv
          rcases ih acc2 out hout v hv with h | h
          · have hfold : iterIdxFold c acc x
                = (pyIntE x >>= fun k =>
                    if 1 ≤ k ∧ k ≤ (c.length : Int) then pure (acc ++ [resolveIdx c k])
                    else pure acc) := rfl
            rw [hfold] at hx
            cases hke : pyIntE x with
            | error e =>
                rw [hke] at hx
                cases e
                rw [exc_error_bind] at hx
                exact Except.noConfusion hx
            | ok k =>
                rw [hke] at hx
                simp only [exc_ok_bind] at hx
                by_cases hk : 1 ≤ k ∧ k ≤ (c.length : Int)
                · rw [if_pos hk] at hx
                  have hacc : acc ++ [resolveIdx c k] = acc2 := by
                    have hx2 : Except.ok (acc ++ [resolveIdx c k]) = Except.ok acc2 := hx
                    injection hx2
                  rcases List.mem_append.mp (hacc ▸ h) with h2 | h2
                  · exact Or.inl h2
                  · rw [List.mem_singleton] at h2
                    subst h2
                    exact Or.inr (resolveIdx_mem c k hk.1 hk.2)
                · rw [if_neg hk] at hx
                  have hacc : acc = acc2 := by
                    have hx2 : Except.ok acc = Except.ok acc2 := hx
                    injection hx2
                  exact Or.inl (hacc ▸ h)
          · exact Or.inr h

/-- Everything `IterativeGroupingAnalyzer.parse_response` returns is a member
of the candidate pool. -/
theorem parse_response_iterative_mem (r : String) (c : List FileVersion) :
    ∀ v ∈ parse_response_iterative r c, v ∈ c := by
  intro v hv
  unfold parse_response_iterative at hv
  split at hv
  case h_2 => simp at hv
  case h_1 l heq =>
    cases hj : parse_json_response r with
    | error e =>
        rw [hj] at heq
        cases e
        rw [exc_error_bind] at heq
        exact Except.noConfusion heq
    | ok j =>
        rw [hj] at heq
        simp only [exc_ok_bind] at heq
        cases hg : pyGetE j "similar_files" (JVal.jarr []) with
        | error e =>
            rw [hg] at heq
            cases e
            rw [exc_error_bind] at heq
            exact Except.noConfusion heq
        | ok sj =>
            rw [hg] at heq
            simp only [exc_ok_bind] at heq
            cases hi : pyIterE sj with
            | error e =>
                rw [hi] at heq
                cases e
                rw [exc_error_bind] at heq
                exact Except.noConfusion heq
            | ok xs =>
                rw [hi] at heq
                simp only [exc_ok_bind] at heq
                rcases iter_fold_mem c xs [] l heq v hv with h | h
                · simp at h
                · exact h

/-- The seed loop with any fuel: the empty pool yields no groups and no
leftovers. -/
theorem iterLoopAux_nil (oracle : FileVersion → List FileVersion → String) (fuel : Nat) :
    iterLoopAux oracle fuel [] = ([], []) := by
  cases fuel <;> rfl

/-- The seed-driven loop preserves membership with multiplicity: when the pool
hashes are pairwise distinct and the oracle never returns a duplicated match
list, the formed groups plus the leftover pool are a permutation of the input
pool. -/
theorem iterLoop_perm (oracle : FileVersion → List FileVersion → String)
    (ho : ∀ s c, (parse_response_iterative (oracle s c) c).Nodup) :
    ∀ (fuel : Nat) (remaining : List FileVersion),
      (remaining.map (·.original_hash)).Nodup →
      ((((iterLoopAux oracle fuel remaining).1.map (·.versions)).flatten
          ++ (iterLoopAux oracle fuel remaining).2).Perm remaining) := by
  intro fuel
  induction fuel with
  | zero =>
      intro remaining _
      simp [iterLoopAux]
  | succ fuel ih =>
      intro remaining hnd
      cases remaining with
      | nil => simp [iterLoopAux]
      | cons seed rest =>
          have hseed_not : seed.original_hash ∉ rest.map (·.original_hash) := by
            rw [List.map_cons] at hnd
            exact (List.nodup_cons.mp hnd).1
          have hndr : (rest.map (·.original_hash)).Nodup := by
            rw [List.map_cons] at hnd
            exact (List.nodup_cons.mp hnd).2
          have hcand : (seed :: rest).filter
              (fun v => v.original_hash ≠ seed.original_hash) = rest := by
            rw [List.filter_cons]
            have h1 : ¬ (decide (seed.original_hash ≠ seed.original_hash) = true) := by simp
            rw [if_neg h1]
            apply List.filter_eq_self.mpr
            intro v hv
            simp only [decide_eq_true_eq]
            intro heq
            exact hseed_not (heq ▸ List.mem_map_of_mem (·.original_hash) hv)
          simp only [iterLoopAux]
          rw [hcand]
          by_cases hre : rest.isEmpty
          · rw [if_pos hre]
            have hrnil : rest = [] := by simpa using hre
            subst hrnil
            rw [iterLoopAux_nil]
            simp [mkSeedSingle]
          · rw [if_neg hre]
            by_cases hsi : (parse_response_iterative (oracle seed rest) rest).isEmpty
            · rw [if_pos hsi]
              have ihr := ih rest hndr
              simp only [List.map_cons, List.flatten_cons, mkSeedSingle]
              have hsh : ([seed] ++ ((iterLoopAux oracle fuel rest).1.map (·.versions)).flatten)
                    ++ (iterLoopAux oracle fuel rest).2
                  = seed :: (((iterLoopAux oracle fuel rest).1.map (·.versions)).flatten
                    ++ (iterLoopAux oracle fuel rest).2) := by simp
              rw [hsh]
              exact ihr.cons seed
            · rw [if_neg hsi]
              obtain ⟨sims, hsims⟩ :
                  ∃ s, s = parse_response_iterative (oracle seed rest) rest := ⟨_, rfl⟩
              rw [← hsims]
              obtain ⟨rem2, hrem2⟩ :
                  ∃ r2, r2 = (seed :: rest).filter
                    (fun v => v.original_hash ∉ (seed :: sims).map (·.original_hash)) := ⟨_, rfl⟩
              rw [← hrem2]
              have hsub : ∀ v ∈ sims, v ∈ rest := by
                intro v hv
                exact parse_response_iterative_mem (oracle seed rest) rest v (hsims ▸ hv)
              have hsim_nodup : sims.Nodup := by
                rw [hsims]
                exact ho seed rest
              have hsim_hash : ∀ v ∈ sims, v.original_hash ≠ seed.original_hash := by
                intro v hv heq
                exact hseed_not (heq ▸ List.mem_map_of_mem (·.original_hash) (hsub v hv))
              have hg_nodup : (seed :: sims).Nodup := by
                rw [List.nodup_cons]
                refine ⟨fun hmem => hsim_hash seed hmem rfl, hsim_nodup⟩
              have hnodup_sr : (seed :: rest).Nodup := List.Nodup.of_map _ hnd
              have hrem2_sub : rem2.Sublist (seed :: rest) := by
                rw [hrem2]
                exact List.filter_sublist _
              have hrem2_nodup : rem2.Nodup := hrem2_sub.nodup hnodup_sr
              have hrem2_hash : (rem2.map (·.original_hash)).Nodup :=
                (hrem2_sub.map (·.original_hash)).nodup hnd
              have ih2 := ih rem2 hrem2_hash
              have key : ((seed :: sims) ++ rem2).Perm (seed :: rest) := by
                apply List.perm_of_nodup_nodup_toFinset_eq
                · rw [List.nodup_append]
                  refine ⟨hg_nodup, hrem2_nodup, ?_⟩
                  intro x hx1 hx2
                  rw [hrem2] at hx2
                  have hx3 := List.of_mem_filter hx2
                  simp only [decide_eq_true_eq] at hx3
                  exact hx3 (List.mem_map_of_mem (·.original_hash) hx1)
                · exact hnodup_sr
                · apply Finset.ext
                  intro x
                  simp only [List.mem_toFinset, List.mem_append]
                  constructor
                  · rintro (hx | hx)
                    · rcases List.mem_cons.mp hx with hx2 | hx2
                      · exact hx2 ▸ List.mem_cons_self _ _
                      · exact List.mem_cons_of_mem _ (hsub x hx2)
                    · exact hrem2_sub.mem hx
                  · intro hx
                    by_cases hxh : x.original_hash ∈ (seed :: sims).map (·.original_hash)
                    · obtain ⟨y, hy, hyx⟩ := List.mem_map.mp hxh
                      have hy2 : y ∈ seed :: rest := by
                        rcases List.mem_cons.mp hy with h2 | h2
                        · exact h2 ▸ List.mem_cons_self _ _
                        · exact List.mem_cons_of_mem _ (hsub y h2)
                      have hxy : x = y :=
                        List.inj_on_of_nodup_map hnd hx hy2 hyx.symm
                      exact Or.inl (hxy ▸ hy)
                    · refine Or.inr ?_
                      rw [hrem2]
                      exact List.mem_filter.mpr ⟨hx, by simpa using hxh⟩
              show ((seed :: sims)
                  ++ ((iterLoopAux oracle fuel rem2).1.map (·.versions)).flatten
                  ++ (iterLoopAux oracle fuel rem2).2).Perm (seed :: rest)
              rw [List.append_assoc]
              exact (List.Perm.append_left (seed :: sims) ih2).trans key

/-- Flattening the singleton groups of the leftover pool recovers the pool. -/
theorem flatten_seed_singles :
    ∀ l : List FileVersion, ((l.map mkSeedSingle).map (·.versions)).flatten = l := by
  intro l
  induction l with
  | nil => rfl
  | cons a l ih =>
      simp only [List.map_cons, List.flatten_cons]
      rw [ih]
      rfl

/-- C1 (counterexample): the batch engine is NOT partition-complete for
arbitrary oracle responses.  When two response groups both reference file
index 1, the single input file is resolved into BOTH groups, so it appears
twice in the output instead of exactly once. -/
theorem C1_counterexample :
    ¬ ((((parse_response_batch respDupIdx [fvA]).map (·.versions)).flatten).count fvA = 1) := by
  decide

/-- C1 (amended): partition completeness holds with multiplicity corrections.
Batch side: on a well-typed groups response over pairwise-distinct versions,
file i appears max(r, 1) times in the output, where r counts the in-range
references to its 1-based index: an unreferenced file gains a completeness
singleton, but every repeated reference DUPLICATES the file.  Iterative side:
with pairwise-distinct hashes and an oracle whose match lists never contain
duplicates, the seed loop is partition-complete: the output groups flatten to
a permutation of the input pool. -/
theorem C1_amended :
    (∀ (versions : List FileVersion) (gs : List GroupS) (i : Nat) (h : i < versions.length),
        versions.Nodup →
        ∃ out, batchParse (mkGroupsResp (gs.map encGroup)) versions = Except.ok out ∧
          ((out.map (·.versions)).flatten).count (versions.get ⟨i, h⟩)
            = max ((groupRefs gs versions.length).count ((i : Int) + 1)) 1) ∧
    (∀ (oracle : FileVersion → List FileVersion → String) (versions : List FileVersion),
        (versions.map (·.original_hash)).Nodup →
        (∀ s c, (parse_response_iterative (oracle s c) c).Nodup) →
        (((iterative_analysis_groups oracle versions).map (·.versions)).flatten).Perm versions) := by
  constructor
  · intro versions gs i h hnd
    refine ⟨_, batchParse_enc versions gs, ?_⟩
    rw [List.map_append, List.flatten_append, List.count_append]
    rw [flatten_enc_groups]
    rw [flatten_singles versions (groupRefs gs versions.length) (List.range versions.length)]
    rw [singleKeepF_filter versions (groupRefs gs versions.length) (List.range versions.length)]
    rw [count_resolved_refs versions hnd (groupRefs gs versions.length)
      (groupRefs_in_range gs versions.length) i h]
    rw [count_singles versions hnd (groupRefs gs versions.length) i h]
    by_cases hmem : ((i : Int) + 1) ∈ groupRefs gs versions.length
    · rw [if_pos hmem]
      have hpos : 0 < (groupRefs gs versions.length).count ((i : Int) + 1) :=
        List.count_pos_iff.mpr hmem
      omega
    · rw [if_neg hmem]
      have hzero : (groupRefs gs versions.length).count ((i : Int) + 1) = 0 :=
        List.count_eq_zero.mpr hmem
      omega
  · intro oracle versions hnd ho
    have hperm := iterLoop_perm oracle ho 10 versions hnd
    have hunf : iterative_analysis_groups oracle versions
        = (iterLoopAux oracle 10 versions).1
          ++ (iterLoopAux oracle 10 versions).2.map mkSeedSingle := rfl
    rw [hunf, List.map_append, List.flatten_append, flatten_seed_singles]
    exact hperm

/-- Closed witness for the amended C1, iterative side: the zero-match oracle
on a one-file pool yields groups flattening to a permutation of the pool. -/
theorem C1_amended_witness :
    (((iterative_analysis_groups zeroOracle [fvA]).map (·.versions)).flatten).Perm [fvA] :=
  C1_amended.2 zeroOracle [fvA] (by decide)
    (fun s c => by
      rw [show parse_response_iterative (zeroOracle s c) c = [] from rfl]
      exact List.nodup_nil)

end GitRescue
